import Mathlib

/-!
Verification of the modular decomposition engine
(`sage/graphs/graph_decompositions/modular_decomposition.py`).

The development shallowly embeds the data model and the operations of the
source file: the output tree type (`MDTree`), the nested-tuple serialization,
tree equivalence, the gamma-class computation and the Habib–Maurer
decomposer, the `_TedderMDNode.number_comps` numbering routine, and a
pointer-level embedding of the `_Tedder*` machinery used by
`tedder_algorithm`, faithful enough to evaluate it on concrete graphs.
-/

/-- `NodeType` enumeration from the source: the kinds of nodes of a modular
decomposition tree. -/
inductive NodeType where
  | PRIME
  | SERIES
  | PARALLEL
  | NORMAL
  | FOREST
deriving DecidableEq, Repr

/-- `NodeType.is_degenerate`: true for `PARALLEL` and `SERIES`. -/
def NodeType.is_degenerate : NodeType → Bool
  | .PARALLEL => true
  | .SERIES => true
  | _ => false

example : NodeType.SERIES.is_degenerate = true := rfl

/-!
## The output tree type

The source's `Node` objects, as produced by `create_normal_node` /
`create_prime_node` / `create_parallel_node` / `create_series_node` and the
two decomposers, are either a `NORMAL` node whose `children` list holds the
single vertex it represents, or an internal node with a `node_type` and a
list of child nodes.  `MDTree α` embeds exactly these shapes; `MDForest α`
is the children list (a plain cons-list, kept as a mutual inductive so that
all functions below are structurally recursive and kernel-computable).
The payload type `α` is the (dynamically typed) vertex value.
-/

mutual
/-- A `Node` of the source: `leaf v` is `create_normal_node(v)` (a `NORMAL`
node with `children == [v]`), `node t cs` is a `Node(t)` with child subtrees
`cs`. -/
inductive MDTree (α : Type) where
  | leaf (v : α)
  | node (t : NodeType) (children : MDForest α)
deriving DecidableEq, Repr

/-- A list of child subtrees (`Node.children` of an internal node). -/
inductive MDForest (α : Type) where
  | nil
  | cons (hd : MDTree α) (tl : MDForest α)
deriving DecidableEq, Repr
end

/-- `node_type` attribute of a `Node`: a leaf is `NORMAL`. -/
def MDTree.node_type {α : Type} : MDTree α → NodeType
  | .leaf _ => .NORMAL
  | .node t _ => t

/-- `len(node.children)` for an internal node. -/
def MDForest.length {α : Type} : MDForest α → Nat
  | .nil => 0
  | .cons _ tl => tl.length + 1

/-- Conversion of the children list to a Lean `List` (used only to state
theorems). -/
def MDForest.toList {α : Type} : MDForest α → List (MDTree α)
  | .nil => []
  | .cons hd tl => hd :: tl.toList

mutual
/-- `get_vertices`: collect, left to right, the vertex of every `NORMAL`
node of the tree (source lines 2119-2161). -/
def get_vertices {α : Type} : MDTree α → List α
  | .leaf v => [v]
  | .node _ cs => get_vertices_forest cs

/-- `get_vertices` extended over a children list. -/
def get_vertices_forest {α : Type} : MDForest α → List α
  | .nil => []
  | .cons hd tl => get_vertices hd ++ get_vertices_forest tl
end

/-- Equality of Python `frozenset`s of vertices: the two lists hold the same
elements. -/
def eqset {α : Type} [DecidableEq α] (xs ys : List α) : Bool :=
  xs.all (fun x => x ∈ ys) && ys.all (fun y => y ∈ xs)

/-- `node_id(root)` of `equivalent_trees`: the pair
`(root.node_type, frozenset(get_vertices(root)))`, with the frozenset kept
as the raw vertex list (comparisons go through `eqset`). -/
def node_id {α : Type} (root : MDTree α) : NodeType × List α :=
  (root.node_type, get_vertices root)

/-- Key equality for `node_id` values: types equal and vertex sets equal. -/
def idEq {α : Type} [DecidableEq α] (i j : NodeType × List α) : Bool :=
  i.1 == j.1 && eqset i.2 j.2

/-- The dictionary `child_map` of `equivalent_trees`: inserting each child of
`root2` in order, a later child overwriting an earlier one with an equal
`node_id` key (Python `dict` assignment).  Entries are accumulated in front,
so a lookup takes the first match. -/
def build_child_map {α : Type} [DecidableEq α] :
    MDForest α → List ((NodeType × List α) × MDTree α)
  | .nil => []
  | .cons hd tl => build_child_map tl ++ [(node_id hd, hd)]

/-- `child_map[id]` lookup: the most recently inserted entry with an
`idEq`-equal key (entries are searched back to front). -/
def lookup_id {α : Type} [DecidableEq α] (i : NodeType × List α) :
    List ((NodeType × List α) × MDTree α) → Option (MDTree α)
  | [] => none
  | (k, v) :: rest =>
      match lookup_id i rest with
      | some r => some r
      | none => if idEq i k then some v else none

mutual
/-- `equivalent_trees(root1, root2)` (source lines 2463-2507): the two trees
are equal up to reordering of children, where children are matched by
`node_id` (node type together with the set of vertices of the subtree). -/
def equivalent_trees {α : Type} [DecidableEq α] : MDTree α → MDTree α → Bool
  | .leaf v1, .leaf v2 => v1 == v2
  | .leaf _, .node _ _ => false
  | .node _ _, .leaf _ => false
  | .node t1 cs1, .node t2 cs2 =>
      t1 == t2 && cs1.length == cs2.length &&
        match_children cs1 (build_child_map cs2)

/-- The loop of `equivalent_trees` over `root1.children`: every child must
find an `idEq`-matching entry in `child_map` and be recursively equivalent
to it. -/
def match_children {α : Type} [DecidableEq α] :
    MDForest α → List ((NodeType × List α) × MDTree α) → Bool
  | .nil, _ => true
  | .cons c cs, m =>
      match lookup_id (node_id c) m with
      | none => false
      | some c2 => equivalent_trees c c2 && match_children cs m
end

/-!
## Nested-tuple serialization (`tree_to_nested_tuple` / `nested_tuple_to_tree`)

The values flowing through the two functions are dynamically typed Python
objects: vertex identifiers (numbers), tuples whose first element is a
`NodeType`, and lists.  `PyObj` embeds this value universe; `PyList` is a
cons-list of such values.
-/

mutual
/-- A Python value handled by the nested-tuple serialization: a number
(vertex identifier), a tuple headed by a `NodeType`, or a list. -/
inductive PyObj where
  | num (n : Nat)
  | tup (t : NodeType) (elems : PyList)
  | plist (elems : PyList)
deriving DecidableEq, Repr

/-- A list of Python values. -/
inductive PyList where
  | nil
  | cons (hd : PyObj) (tl : PyList)
deriving DecidableEq, Repr
end

mutual
/-- `tree_to_nested_tuple(root)` (source lines 2403-2427): a `NORMAL` node
becomes its vertex (`root.children[0]`); an internal node becomes the tuple
`(root.node_type, [tree_to_nested_tuple(x) for x in root.children])` - a
tuple with exactly two components, the second being the *list* of encoded
children. -/
def tree_to_nested_tuple : MDTree PyObj → PyObj
  | .leaf v => v
  | .node t cs => .tup t (.cons (.plist (encode_children cs)) .nil)

/-- The list comprehension `[tree_to_nested_tuple(x) for x in root.children]`. -/
def encode_children : MDForest PyObj → PyList
  | .nil => .nil
  | .cons hd tl => .cons (tree_to_nested_tuple hd) (encode_children tl)
end

mutual
/-- `nested_tuple_to_tree(nest)` (source lines 2430-2460): a non-tuple value
becomes `create_normal_node(nest)`; a tuple becomes a `Node(nest[0])` whose
children are obtained by decoding each element of `nest[1:]`. -/
def nested_tuple_to_tree : PyObj → MDTree PyObj
  | .num n => .leaf (.num n)
  | .plist l => .leaf (.plist l)
  | .tup t elems => .node t (decode_children elems)

/-- The list comprehension `[nested_tuple_to_tree(n) for n in nest[1:]]`. -/
def decode_children : PyList → MDForest PyObj
  | .nil => .nil
  | .cons hd tl => .cons (nested_tuple_to_tree hd) (decode_children tl)
end

/-- Shorthand for a two-leaf `SERIES` tree with vertices 1 and 2. -/
def series12 : MDTree PyObj :=
  .node .SERIES (.cons (.leaf (.num 1)) (.cons (.leaf (.num 2)) .nil))

example : tree_to_nested_tuple series12 =
    .tup .SERIES (.cons (.plist (.cons (.num 1) (.cons (.num 2) .nil))) .nil) := rfl

/-- C1.  The round trip fails on the two-leaf `SERIES` tree: the encoder
produces `(SERIES, [1, 2])`, a tuple whose single trailing element is the
children *list*, while the decoder treats each trailing tuple element as one
child, so the decoded tree is a `SERIES` node with a single `NORMAL` child
whose "vertex" is the Python list `[1, 2]`.  The decoded tree is not
equivalent to the original (child counts 1 versus 2 already differ). -/
theorem tree_to_nested_tuple_roundtrip_fails :
    equivalent_trees series12 (nested_tuple_to_tree (tree_to_nested_tuple series12)) = false ∧
    nested_tuple_to_tree (tree_to_nested_tuple series12) =
      .node .SERIES (.cons (.leaf (.plist (.cons (.num 1) (.cons (.num 2) .nil)))) .nil) := by
  constructor
  · rfl
  · rfl

/-!
## `_TedderMDNode.number_comps`

For claim C7 only the tree structure, the node type and the `comp_number`
field matter, so `_TedderMDNode` subtrees are embedded as the functional
rose tree `TMD` (leaves of the intrusive tree are childless `TMD` nodes;
a `_TedderMDLeafNode` carries the default type `PRIME`).  The in-place
mutation of `comp_number` becomes returning the updated tree.
-/

mutual
/-- A `_TedderMDNode` subtree, restricted to the fields read or written by
`number_comps`: its `type`, its `comp_number` and its children. -/
inductive TMD where
  | mk (type : NodeType) (comp_number : Int) (children : TMDForest)
deriving DecidableEq, Repr

/-- Children list of a `TMD` node (first child to last sibling). -/
inductive TMDForest where
  | nil
  | cons (hd : TMD) (tl : TMDForest)
deriving DecidableEq, Repr
end

mutual
/-- `set_comp_number_for_subtree` (source lines 856-865): store the given
number in every node of the subtree. -/
def set_comp_number_for_subtree : TMD → Int → TMD
  | .mk t _ cs, n => .mk t n (set_comp_number_for_forest cs n)

/-- `set_comp_number_for_subtree` over a children list. -/
def set_comp_number_for_forest : TMDForest → Int → TMDForest
  | .nil, _ => .nil
  | .cons hd tl, n =>
      .cons (set_comp_number_for_subtree hd n) (set_comp_number_for_forest tl n)
end

/-- The `while` loop of the first branch of `number_comps`: each child's
whole subtree receives the current number, which is then incremented.
Returns the updated children and the final value of `comp_number`. -/
def number_comps_children : TMDForest → Int → TMDForest × Int
  | .nil, n => (.nil, n)
  | .cons hd tl, n =>
      let rest := number_comps_children tl (n + 1)
      (.cons (set_comp_number_for_subtree hd n) rest.1, rest.2)

/-- `number_comps(comp_number, by_type)` (source lines 878-909): if this
node's type equals `by_type`, assign consecutive numbers starting at
`comp_number` to the children's subtrees, else assign `comp_number` to the
whole subtree; in both cases return `comp_number - orig_comp_number`, the
amount by which the branch advanced the local `comp_number` variable
(the second branch never advances it). -/
def number_comps (t : TMD) (comp_number : Int) (by_type : NodeType) :
    TMD × Int :=
  match t with
  | .mk ty c cs =>
      if ty = by_type then
        let res := number_comps_children cs comp_number
        (.mk ty c res.1, res.2 - comp_number)
      else
        (set_comp_number_for_subtree (.mk ty c cs) comp_number, 0)

/-- A childless `_TedderMDNode` (or `_TedderMDLeafNode`) with the default
type `PRIME` and untouched `comp_number`. -/
def tmdLeaf : TMD := .mk .PRIME (-1) .nil

/-- A `SERIES` node with two leaf children, `comp_number` untouched. -/
def tmdSeries2 : TMD := .mk .SERIES (-1) (.cons tmdLeaf (.cons tmdLeaf .nil))

/-- C7.  `number_comps` on a node whose type differs from `by_type` assigns
the starting number 5 to the entire subtree - consuming that number - but
returns 0, not 1: the caller `number_by_comp` (source lines 1832-1849),
which advances its counter by the returned value, will hand the *same*
number to the next (co-)component, contradicting its own documentation
("one more than the previous (co-)component").  When the type matches,
the returned value is the child count, as documented. -/
theorem number_comps_returns_zero :
    number_comps tmdSeries2 5 .PARALLEL =
      (.mk .SERIES 5 (.cons (.mk .PRIME 5 .nil) (.cons (.mk .PRIME 5 .nil) .nil)), 0) ∧
    (number_comps tmdSeries2 5 .SERIES).2 = 2 := by
  constructor
  · rfl
  · rfl

/-!
## Graphs

The decomposers consume the host graph through a small capability surface:
vertex iteration, neighbor query, edge iteration, order, directedness,
induced subgraph, edge subgraph, complement and connected components.
`SGraph` embeds a finite graph as its vertex list (in iteration order) and
an edge list; all capabilities are implemented below.  Sage returns
neighbor lists and components in a sorted order; here both follow the
vertex-list order, which only permutes children of the constructed trees
(all properties proved below are insensitive to that order).
-/

structure SGraph where
  directed : Bool
  V : List Nat
  E : List (Nat × Nat)
deriving DecidableEq, Repr

/-- `has_edge`: the edge list holds the pair in either orientation. -/
def adj (g : SGraph) (u v : Nat) : Bool :=
  g.E.any (fun e => (e.1 == u && e.2 == v) || (e.1 == v && e.2 == u))

/-- A well-formed undirected simple graph: vertices are distinct and every
edge joins two distinct listed vertices. -/
def SGraph.wf (g : SGraph) : Prop :=
  g.directed = false ∧ g.V.Nodup ∧
    ∀ e ∈ g.E, e.1 ∈ g.V ∧ e.2 ∈ g.V ∧ e.1 ≠ e.2

/-- `graph.order()`. -/
def SGraph.order (g : SGraph) : Nat := g.V.length

/-- `graph.neighbors(v)`, listed in vertex order. -/
def neighbors (g : SGraph) (v : Nat) : List Nat :=
  g.V.filter (fun w => adj g v w)

/-- `graph.subgraph(vertices=s)`: the subgraph induced on `s`. -/
def subgraphV (g : SGraph) (s : List Nat) : SGraph :=
  { directed := false
    V := g.V.filter (fun v => v ∈ s)
    E := g.E.filter (fun e => decide (e.1 ∈ s) && decide (e.2 ∈ s)) }

/-- `graph.subgraph(edges=es)`: all vertices, edges restricted to the given
pairs (in either orientation). -/
def subgraphE (g : SGraph) (es : List (Nat × Nat)) : SGraph :=
  { directed := false
    V := g.V
    E := g.E.filter (fun e =>
      es.any (fun f => (f.1 == e.1 && f.2 == e.2) || (f.1 == e.2 && f.2 == e.1))) }

/-- All unordered pairs of a vertex list, each pair once, first component
earlier in the list. -/
def allPairs : List Nat → List (Nat × Nat)
  | [] => []
  | v :: vs => vs.map (fun w => (v, w)) ++ allPairs vs

/-- `graph.complement()`. -/
def complement (g : SGraph) : SGraph :=
  { directed := false
    V := g.V
    E := (allPairs g.V).filter (fun e => !adj g e.1 e.2) }

/-- `graph.edge_iterator()`: each edge once, as a pair of vertices in
vertex-list order. -/
def edgeList (g : SGraph) : List (Nat × Nat) :=
  (allPairs g.V).filter (fun e => adj g e.1 e.2)

/-- One round of breadth-first growth: append every yet-unreached vertex
adjacent to the current component. -/
def componentStep (g : SGraph) (comp : List Nat) : List Nat :=
  g.V.filter (fun w => !comp.contains w && comp.any (fun u => adj g u w))

/-- Grow a component to closure (the fuel `g.V.length` always suffices,
as proved below). -/
def componentFrom (g : SGraph) : Nat → List Nat → List Nat
  | 0, comp => comp
  | fuel + 1, comp =>
      let new := componentStep g comp
      if new.isEmpty then comp else componentFrom g fuel (comp ++ new)

/-- The connected component containing `v`. -/
def component (g : SGraph) (v : Nat) : List Nat :=
  componentFrom g g.V.length [v]

/-- The loop of `connected_components`: scan vertices in order, starting a
new component at every vertex not yet placed in one. -/
def componentsAux (g : SGraph) : List Nat → List Nat → List (List Nat)
  | [], _ => []
  | v :: vs, seen =>
      if v ∈ seen then componentsAux g vs seen
      else component g v :: componentsAux g vs (seen ++ component g v)

/-- `graph.connected_components()`. -/
def connected_components (g : SGraph) : List (List Nat) :=
  componentsAux g g.V []

/-- `graph.is_connected()`: the first component holds every vertex (an
empty graph is connected). -/
def is_connected (g : SGraph) : Bool :=
  if g.V.isEmpty then true
  else ((connected_components g).headD []).length == g.V.length

/-!
## Gamma classes (`gamma_classes`, source lines 414-461)

The disjoint-set of edges is embedded as a list of blocks (each block a
list of edges); a `union` merges the two blocks containing the given
edges.  Edges are unordered pairs (`frozenset`s of two vertices), so all
membership tests go through the orientation-insensitive `epEq`.
-/

/-- Equality of unordered vertex pairs. -/
def epEq (e f : Nat × Nat) : Bool :=
  (e.1 == f.1 && e.2 == f.2) || (e.1 == f.2 && e.2 == f.1)

/-- Remove the block containing `e` from a partition, returning it and the
remaining blocks in order. -/
def extractBlock :
    List (List (Nat × Nat)) → (Nat × Nat) →
      Option (List (Nat × Nat) × List (List (Nat × Nat)))
  | [], _ => none
  | b :: bs, e =>
      if b.any (epEq e) then some (b, bs)
      else
        match extractBlock bs e with
        | none => none
        | some (be, rest) => some (be, b :: rest)

/-- `DisjointSet.union(e, f)`: merge the blocks containing `e` and `f`
(no effect when they already share a block). -/
def unionE (part : List (List (Nat × Nat))) (e f : Nat × Nat) :
    List (List (Nat × Nat)) :=
  match extractBlock part e with
  | none => part
  | some (be, rest) =>
      if be.any (epEq f) then part
      else
        match extractBlock rest f with
        | none => part
        | some (bf, rest2) => (be ++ bf) :: rest2

/-- The body of the `for v in graph` loop of `gamma_classes`: for every
connected component of the complement of the neighborhood of `v`, union the
edge from `v` to the component's first vertex with the edges from `v` to
each of the component's remaining vertices. -/
def gammaStep (g : SGraph) (part : List (List (Nat × Nat))) (v : Nat) :
    List (List (Nat × Nat)) :=
  let nbhd := subgraphV g (neighbors g v)
  (connected_components (complement nbhd)).foldl
    (fun p comp =>
      match comp with
      | [] => p
      | v1 :: rest => rest.foldl (fun p2 vi => unionE p2 (v1, v) (vi, v)) p)
    part

/-- The final partition of the edge set into gamma classes (the state of
the `DisjointSet` after the loop). -/
def gammaPieces (g : SGraph) : List (List (Nat × Nat)) :=
  g.V.foldl (gammaStep g) ((edgeList g).map (fun e => [e]))

/-- `frozenset(chain.from_iterable(loe))`: the set of endpoints of a class,
as a duplicate-free list. -/
def support (loe : List (Nat × Nat)) : List Nat :=
  ((loe.map (fun e => [e.1, e.2])).flatten).dedup

/-- Insertion into a Python dict keyed by frozensets of vertices: an
`eqset`-equal key overwrites the stored value, a new key is appended. -/
def dictUpsert (d : List (List Nat × List (Nat × Nat))) (k : List Nat)
    (v : List (Nat × Nat)) : List (List Nat × List (Nat × Nat)) :=
  if d.any (fun kv => eqset kv.1 k) then
    d.map (fun kv => if eqset kv.1 k then (kv.1, v) else kv)
  else d ++ [(k, v)]

/-- `gamma_classes(graph)`: the dictionary mapping the vertex set of each
class to the class. -/
def gamma_classes (g : SGraph) : List (List Nat × List (Nat × Nat)) :=
  (gammaPieces g).foldl (fun d loe => dictUpsert d (support loe) loe) []

/-!
## The Habib-Maurer decomposer (`habib_maurer_algorithm`, source 616-655)

Python exceptions become an explicit `Except`: `ValueError` on directed
input, `KeyError` when the dictionary lookup `g_classes[vertex_set]` finds
no class, and a fuel error that a sufficiently large fuel (one unit per
recursion level; the top-level call supplies `order + 1`) never reaches.
-/

inductive HErr where
  | directed
  | keyError
  | fuelOut
deriving DecidableEq, Repr

/-- `g_classes[vertex_set]`: find the class stored under an `eqset`-equal
key. -/
def lookupClass (d : List (List Nat × List (Nat × Nat))) (k : List Nat) :
    Option (List (Nat × Nat)) :=
  match d.find? (fun kv => eqset kv.1 k) with
  | some kv => some kv.2
  | none => none

/-- Evaluate a list comprehension of recursive calls: the first raised
exception propagates, otherwise the children form a forest. -/
def collectForest : List (Except HErr (MDTree Nat)) → Except HErr (MDForest Nat)
  | [] => .ok .nil
  | .error e :: _ => .error e
  | .ok t :: rest =>
      match collectForest rest with
      | .error e => .error e
      | .ok f => .ok (.cons t f)

/-- `defaultdict(list)` insertion `d[k].append(v)` for vertex keys. -/
def dInsert (d : List (Nat × List Nat)) (k v : Nat) : List (Nat × List Nat) :=
  if d.any (fun kv => kv.1 == k) then
    d.map (fun kv => if kv.1 == k then (kv.1, kv.2 ++ [v]) else kv)
  else d ++ [(k, [v])]

/-- The dictionary `d` of the prime branch: `d[v1]` lists the neighbors of
`v1` in the gamma-class subgraph, in iteration order. -/
def buildD (sub : SGraph) : List (Nat × List Nat) :=
  sub.V.foldl (fun d v => (neighbors sub v).foldl (fun d2 v1 => dInsert d2 v1 v) d) []

/-- `defaultdict(list)` insertion `d1[frozenset(k)].append(v)` for
neighborhood-set keys. -/
def d1Insert (d : List (List Nat × List Nat)) (k : List Nat) (v : Nat) :
    List (List Nat × List Nat) :=
  if d.any (fun kv => eqset kv.1 k) then
    d.map (fun kv => if eqset kv.1 k then (kv.1, kv.2 ++ [v]) else kv)
  else d ++ [(k, [v])]

/-- The dictionary `d1` of the prime branch: vertices bucketed by their
neighborhood set in the gamma-class subgraph. -/
def buildD1 (d : List (Nat × List Nat)) : List (List Nat × List Nat) :=
  d.foldl (fun d1 kv => d1Insert d1 kv.2 kv.1) []

/-- `habib_maurer_algorithm(graph, g_classes)` with explicit fuel; one fuel
unit is spent per recursion level. -/
def habibFuel :
    Nat → SGraph → Option (List (List Nat × List (Nat × Nat))) →
      Except HErr (MDTree Nat)
  | 0, _, _ => .error .fuelOut
  | fuel + 1, g, gcls =>
    if g.directed then .error .directed
    else if g.V.length == 0 then .ok (.node .PRIME .nil)
    else if g.V.length == 1 then .ok (.leaf (g.V.headD 0))
    else if !is_connected g then
      match collectForest ((connected_components g).map
          (fun sg => habibFuel fuel (subgraphV g sg) gcls)) with
      | .error e => .error e
      | .ok f => .ok (.node .PARALLEL f)
    else
      let gC := complement g
      if is_connected gC then
        let gcls2 := match gcls with | some d => d | none => gamma_classes g
        match lookupClass gcls2 g.V with
        | none => .error .keyError
        | some cls =>
          let sub := subgraphE g cls
          let d1 := buildD1 (buildD sub)
          match collectForest (d1.map
              (fun kv => habibFuel fuel (subgraphV g kv.2) (some gcls2))) with
          | .error e => .error e
          | .ok f => .ok (.node .PRIME f)
      else
        match collectForest ((connected_components gC).map
            (fun sg => habibFuel fuel (subgraphV g sg) gcls)) with
        | .error e => .error e
        | .ok f => .ok (.node .SERIES f)

/-- `habib_maurer_algorithm(graph)` as called by users (`modular_decomposition`
is an alias of this function in the source, line 2019). -/
def habib_maurer_algorithm (g : SGraph) : Except HErr (MDTree Nat) :=
  habibFuel (g.V.length + 1) g none

/-!
## The `_Tedder*` machinery (source lines 660-2013)

`tedder_algorithm` works on an intrusive pointer structure that is mutated
destructively, so it is embedded as a small pointer machine: every Python
object (`_TedderSubProblem`, `_TedderMDNode`, `_TedderMDLeafNode`,
`_TedderFactPermElement`) lives in a store, object references are store
indices, and `None` is `Option.none`.  Reading an attribute of `None`
(Python `AttributeError`) surfaces as the explicit error
`TErr.noneDeref`; every loop and recursion carries fuel large enough for
the inputs evaluated here, with exhaustion surfacing as `TErr.fuelOut`
(never reached in the evaluations below).  Methods are translated
statement by statement.
-/

/-! Direct-style Tedder machine: the Python heap is a list of objects; every
method takes the store and returns it (mutators) or just a value (reads);
a raised Python exception is an `Except.error`. -/

/-- `NodeSplit` enumeration from the source. -/
inductive NodeSplit where
  | NO_SPLIT
  | LEFT_SPLIT
  | RIGHT_SPLIT
  | BOTH_SPLIT
deriving DecidableEq, Repr

namespace Tedder

/-- The exact Python class of a stored object (`type(x)`). -/
inductive TCls where
  | subProblem
  | mdNode
  | mdLeaf
  | factPerm
deriving DecidableEq, Repr

/-- One Python object: the union of the attributes of the four classes
(each class only ever touches its own attributes plus the shared intrusive
links). -/
structure TObj where
  cls : TCls
  parent : Option Nat := none
  firstChild : Option Nat := none
  leftSibling : Option Nat := none
  rightSibling : Option Nat := none
  numChildren : Nat := 0
  ntype : NodeType := .PRIME
  compNumber : Int := -1
  treeNumber : Int := -1
  numMarks : Nat := 0
  splitType : NodeSplit := .NO_SPLIT
  alpha : List Nat := []
  nbrs : List Nat := []
  visited : Bool := false
  vertex : Nat := 0
  index : Int := -1
  mu : Option Nat := none
  hasRightCompFragment : Bool := false
  hasLeftCoCompFragment : Bool := false
  hasRightLayerNeighbor : Bool := false
  connected : Bool := false
  active : Bool := false
  pivot : Option Nat := none
deriving Repr

/-- The object store. -/
structure TSt where
  objs : List TObj

inductive TErr where
  | valueError
  | noneDeref
  | fuelOut
  | badIndex
  | assertionError
deriving DecidableEq, Repr

/-! Store evaluation helpers: `forceNat k a` evaluates `k` before producing
`a`; the `z*` functions fold every field of an object (or the spine of the
store) into a `Nat` so that writing an object through `setObj` or `newObj`
leaves the store in evaluated form.  They have no effect on the value. -/

/-- Evaluate the first argument, return the second. -/
def forceNat {α : Type} (k : Nat) (a : α) : α :=
  if k = k then a else a

def zCls : TCls → Nat
  | .subProblem => 0
  | .mdNode => 1
  | .mdLeaf => 2
  | .factPerm => 3

def zTy : NodeType → Nat
  | .PRIME => 0
  | .SERIES => 1
  | .PARALLEL => 2
  | .NORMAL => 3
  | .FOREST => 4

def zSp : NodeSplit → Nat
  | .NO_SPLIT => 0
  | .LEFT_SPLIT => 1
  | .RIGHT_SPLIT => 2
  | .BOTH_SPLIT => 3

def zB : Bool → Nat
  | false => 0
  | true => 1

def zO : Option Nat → Nat
  | none => 0
  | some n => n + 1

def zI : Int → Nat
  | .ofNat n => n
  | .negSucc n => n + 1

def zL : List Nat → Nat
  | [] => 0
  | a :: l => a + zL l

/-- Fold every field of an object. -/
def zObj : TObj → Nat
  | ⟨cls, par, fc, ls, rs, nc, ty, cn, tn, nm, sp, al, nb, vis, vx, ix, mu,
     hrc, hlc, hrl, con, act, piv⟩ =>
      zCls cls + zO par + zO fc + zO ls + zO rs + nc + zTy ty + zI cn +
      zI tn + nm + zSp sp + zL al + zL nb + zB vis + vx + zI ix + zO mu +
      zB hrc + zB hlc + zB hrl + zB con + zB act + zO piv

/-- Count the spine of the store without touching the objects. -/
def zSpine : List TObj → Nat
  | [] => 0
  | _ :: l => zSpine l + 1

/-- Read an object. -/
def getObj (s : TSt) (i : Nat) : Except TErr TObj :=
  match s.objs.get? i with
  | some o => .ok o
  | none => .error .badIndex

/-- Overwrite an object (a Python attribute assignment ends up here). -/
def setObj (s : TSt) (i : Nat) (o : TObj) : TSt :=
  let objs := s.objs.set i o
  forceNat (zObj o + zSpine objs) ⟨objs⟩

/-- Update an object in place. -/
def modifyObj (s : TSt) (i : Nat) (f : TObj → TObj) : Except TErr TSt := do
  let o ← getObj s i
  pure (setObj s i (f o))

/-- Allocate a fresh object, returning its reference. -/
def newObj (s : TSt) (o : TObj) : Nat × TSt :=
  let objs := s.objs ++ [o]
  (s.objs.length, forceNat (zObj o + zSpine objs) ⟨objs⟩)

/-- Follow a possibly-`None` reference (`AttributeError` on `None`). -/
def deref : Option Nat → Except TErr Nat
  | some i => .ok i
  | none => .error .noneDeref

/-! Field helpers (each Python attribute read or write is one call). -/

def parentOf (s : TSt) (i : Nat) : Except TErr (Option Nat) := do
  pure (← getObj s i).parent
def firstChildOf (s : TSt) (i : Nat) : Except TErr (Option Nat) := do
  pure (← getObj s i).firstChild
def leftSibOf (s : TSt) (i : Nat) : Except TErr (Option Nat) := do
  pure (← getObj s i).leftSibling
def rightSibOf (s : TSt) (i : Nat) : Except TErr (Option Nat) := do
  pure (← getObj s i).rightSibling
def setParent (s : TSt) (i : Nat) (v : Option Nat) : Except TErr TSt :=
  modifyObj s i (fun o => { o with parent := v })
def setFirstChild (s : TSt) (i : Nat) (v : Option Nat) : Except TErr TSt :=
  modifyObj s i (fun o => { o with firstChild := v })
def setLeftSib (s : TSt) (i : Nat) (v : Option Nat) : Except TErr TSt :=
  modifyObj s i (fun o => { o with leftSibling := v })
def setRightSib (s : TSt) (i : Nat) (v : Option Nat) : Except TErr TSt :=
  modifyObj s i (fun o => { o with rightSibling := v })

/-! `_TedderTreeNode` methods (source lines 660-818). -/

/-- `remove()`: detach the subtree rooted at this node. -/
def remove (s : TSt) (i : Nat) : Except TErr TSt := do
  let s ← match (← parentOf s i) with
    | some p => modifyObj s p (fun o => { o with numChildren := o.numChildren - 1 })
    | none => pure s
  let s ← match (← leftSibOf s i) with
    | some l => do setRightSib s l (← rightSibOf s i)
    | none => pure s
  let s ← match (← rightSibOf s i) with
    | some r => do setLeftSib s r (← leftSibOf s i)
    | none => pure s
  let s ← match (← parentOf s i) with
    | some p => do
        if (← firstChildOf s p) == some i then setFirstChild s p (← rightSibOf s i)
        else pure s
    | none => pure s
  let s ← setParent s i none
  let s ← setLeftSib s i none
  setRightSib s i none

/-- `add_child(child)`: insert `child` as new first child. -/
def add_child (s : TSt) (self child : Nat) : Except TErr TSt := do
  let s ← remove s child
  let s ← match (← firstChildOf s self) with
    | some f => do
        let s ← setLeftSib s f (some child)
        setRightSib s child (some f)
    | none => pure s
  let s ← setFirstChild s self (some child)
  let s ← setParent s child (some self)
  modifyObj s self (fun o => { o with numChildren := o.numChildren + 1 })

/-- `has_no_children()`. -/
def has_no_children (s : TSt) (i : Nat) : Except TErr Bool := do
  pure ((← getObj s i).numChildren == 0)

/-- `has_only_one_child()`. -/
def has_only_one_child (s : TSt) (i : Nat) : Except TErr Bool := do
  pure ((← getObj s i).numChildren == 1)

/-- `replace_with(replacement)`: `replacement` takes this node's structural
position; this node becomes detached. -/
def replace_with (s : TSt) (self replacement : Nat) : Except TErr TSt := do
  let s ← remove s replacement
  let s ← setLeftSib s replacement (← leftSibOf s self)
  let s ← setRightSib s replacement (← rightSibOf s self)
  let s ← match (← leftSibOf s self) with
    | some l => setRightSib s l (some replacement)
    | none => pure s
  let s ← match (← rightSibOf s self) with
    | some r => setLeftSib s r (some replacement)
    | none => pure s
  let s ← setParent s replacement (← parentOf s self)
  let s ← match (← parentOf s self) with
    | some p => do
        if (← firstChildOf s p) == some self then setFirstChild s p (some replacement)
        else pure s
    | none => pure s
  let s ← setParent s self none
  let s ← setLeftSib s self none
  setRightSib s self none

/-- `insert_before(just_before)`. -/
def insert_before (s : TSt) (self just_before : Nat) : Except TErr TSt := do
  let s ← remove s self
  let s ← setLeftSib s self (← leftSibOf s just_before)
  let s ← match (← leftSibOf s just_before) with
    | some l => setRightSib s l (some self)
    | none => pure s
  let s ← setRightSib s self (some just_before)
  let s ← setLeftSib s just_before (some self)
  let s ← setParent s self (← parentOf s just_before)
  match (← parentOf s just_before) with
  | some p => do
      let s ← modifyObj s p (fun o => { o with numChildren := o.numChildren + 1 })
      if (← firstChildOf s p) == some just_before then
        match (← parentOf s self) with
        | some sp => setFirstChild s sp (some self)
        | none => throw .noneDeref
      else pure s
  | none => pure s

/-- `insert_after(just_after)`. -/
def insert_after (s : TSt) (self just_after : Nat) : Except TErr TSt := do
  let s ← remove s self
  let s ← setRightSib s self (← rightSibOf s just_after)
  let s ← match (← rightSibOf s just_after) with
    | some r => setLeftSib s r (some self)
    | none => pure s
  let s ← setLeftSib s self (some just_after)
  let s ← setRightSib s just_after (some self)
  let s ← setParent s self (← parentOf s just_after)
  match (← parentOf s just_after) with
  | some p => modifyObj s p (fun o => { o with numChildren := o.numChildren + 1 })
  | none => pure s

/-- `make_first_child()`. -/
def make_first_child (s : TSt) (self : Nat) : Except TErr TSt := do
  match (← parentOf s self) with
  | some p => do
      let fc ← firstChildOf s p
      if fc != some self then do
        let nrs ← deref fc
        let s ← remove s self
        insert_before s self nrs
      else pure s
  | none => pure s

/-- `is_root()`: overridden for MD nodes, where being a root of an MD
(sub)tree means the parent is not an (internal) `_TedderMDNode`. -/
def is_root (s : TSt) (i : Nat) : Except TErr Bool := do
  let o ← getObj s i
  match o.cls with
  | .mdNode | .mdLeaf =>
      match o.parent with
      | none => pure true
      | some p => do pure ((← getObj s p).cls != .mdNode)
  | _ => pure (o.parent == none)

/-- `get_leaves()` together with its sibling walk (the source's two
mutually recursive functions are merged into one function on a tagged
argument: `.inl i` is `get_leaves()` on node `i`, `.inr c` is the walk
over the sibling chain starting at `c`). -/
def get_leaves_go : Nat → TSt → Sum Nat (Option Nat) → Except TErr (List Nat)
  | 0, _, _ => .error .fuelOut
  | fuel + 1, s, .inl i => do
      let o ← getObj s i
      if o.cls == .mdLeaf then pure [i]
      else get_leaves_go fuel s (.inr o.firstChild)
  | _ + 1, _, .inr none => pure []
  | fuel + 1, s, .inr (some c) => do
      let l ← get_leaves_go fuel s (.inl c)
      let rs ← rightSibOf s c
      let rest ← get_leaves_go fuel s (.inr rs)
      pure (l ++ rest)

/-- `get_leaves()`: the `_TedderMDLeafNode`s of this subtree, left to
right (a read-only walk). -/
def get_leaves (fuel : Nat) (s : TSt) (i : Nat) : Except TErr (List Nat) :=
  get_leaves_go fuel s (.inl i)

/-- The child walk of `add_children_from`. -/
def acf_loop : Nat → TSt → Nat → Option Nat → Except TErr TSt
  | 0, _, _, _ => .error .fuelOut
  | _ + 1, s, _, none => pure s
  | fuel + 1, s, self, some c => do
      let nxt ← rightSibOf s c
      let s ← add_child s self c
      acf_loop fuel s self nxt

/-- `add_children_from(parent)`: reparent all of `parent`'s children onto
this node. -/
def add_children_from (fuel : Nat) (s : TSt) (self par : Nat) :
    Except TErr TSt := do
  acf_loop fuel s self (← firstChildOf s par)

/-- The child walk of `replace_this_by_its_children`. -/
def rtc_loop : Nat → TSt → Nat → Option Nat → Except TErr TSt
  | 0, _, _, _ => .error .fuelOut
  | _ + 1, s, _, none => pure s
  | fuel + 1, s, self, some c => do
      let nxt ← rightSibOf s c
      let s ← insert_before s c self
      rtc_loop fuel s self nxt

/-- `replace_this_by_its_children()`. -/
def replace_this_by_its_children (fuel : Nat) (s : TSt) (self : Nat) :
    Except TErr TSt := do
  let s ← rtc_loop fuel s self (← firstChildOf s self)
  remove s self

/-- The child walk of `replace_children_with`. -/
def rcw_loop : Nat → TSt → Option Nat → Except TErr TSt
  | 0, _, _ => .error .fuelOut
  | _ + 1, s, none => pure s
  | fuel + 1, s, some c => do
      let nxt ← rightSibOf s c
      let s ← remove s c
      rcw_loop fuel s nxt

/-- `replace_children_with(replacement)`. -/
def replace_children_with (fuel : Nat) (s : TSt) (self replacement : Nat) :
    Except TErr TSt := do
  let s ← rcw_loop fuel s (← firstChildOf s self)
  add_child s self replacement

/-! `_TedderMDNode` methods (source lines 820-1079). -/

/-- `copy(c)`: receive the field values of `c`, but none of its children. -/
def copyMD (s : TSt) (self c : Nat) : Except TErr TSt := do
  let co ← getObj s c
  modifyObj s self (fun o =>
    { o with ntype := co.ntype, compNumber := co.compNumber,
             treeNumber := co.treeNumber, numMarks := co.numMarks,
             splitType := co.splitType })

/-- `is_fully_marked()`. -/
def is_fully_marked (s : TSt) (i : Nat) : Except TErr Bool := do
  let o ← getObj s i
  pure (o.numMarks == o.numChildren)

/-- `clear_marks()`. -/
def clear_marks (s : TSt) (i : Nat) : Except TErr TSt :=
  modifyObj s i (fun o => { o with numMarks := 0 })

/-- `is_marked()`. -/
def is_marked (s : TSt) (i : Nat) : Except TErr Bool := do
  pure ((← getObj s i).numMarks > 0)

/-- `set_comp_number_for_subtree(comp_number)` together with its child
walk (merged mutual recursion: `.inl i` is the subtree call on node `i`,
`.inr c` the walk over the sibling chain starting at `c`). -/
def set_comp_go : Nat → TSt → Sum Nat (Option Nat) → Int → Except TErr TSt
  | 0, _, _, _ => .error .fuelOut
  | fuel + 1, s, .inl i, n => do
      let s ← modifyObj s i (fun o => { o with compNumber := n })
      set_comp_go fuel s (.inr (← firstChildOf s i)) n
  | _ + 1, s, .inr none, _ => pure s
  | fuel + 1, s, .inr (some c), n => do
      let s ← set_comp_go fuel s (.inl c) n
      set_comp_go fuel s (.inr (← rightSibOf s c)) n

/-- `set_comp_number_for_subtree(comp_number)`. -/
def set_comp_number_for_subtree (fuel : Nat) (s : TSt) (i : Nat) (n : Int) :
    Except TErr TSt :=
  set_comp_go fuel s (.inl i) n

/-- `set_tree_number_for_subtree(tree_number)` together with its child
walk (merged mutual recursion, tagged as in `set_comp_go`). -/
def set_tree_go : Nat → TSt → Sum Nat (Option Nat) → Int → Except TErr TSt
  | 0, _, _, _ => .error .fuelOut
  | fuel + 1, s, .inl i, n => do
      let s ← modifyObj s i (fun o => { o with treeNumber := n })
      set_tree_go fuel s (.inr (← firstChildOf s i)) n
  | _ + 1, s, .inr none, _ => pure s
  | fuel + 1, s, .inr (some c), n => do
      let s ← set_tree_go fuel s (.inl c) n
      set_tree_go fuel s (.inr (← rightSibOf s c)) n

/-- `set_tree_number_for_subtree(tree_number)`. -/
def set_tree_number_for_subtree (fuel : Nat) (s : TSt) (i : Nat) (n : Int) :
    Except TErr TSt :=
  set_tree_go fuel s (.inl i) n

/-- The child-numbering loop of `number_comps`; returns the final value of
the local `comp_number`. -/
def number_comps_loop : Nat → TSt → Option Nat → Int → Except TErr (Int × TSt)
  | 0, _, _, _ => .error .fuelOut
  | _ + 1, s, none, n => pure (n, s)
  | fuel + 1, s, some c, n => do
      let s ← set_comp_number_for_subtree 1000 s c n
      number_comps_loop fuel s (← rightSibOf s c) (n + 1)

/-- `number_comps(comp_number, by_type)` on the machine (source 878-909). -/
def number_compsM (s : TSt) (i : Nat) (comp_number : Int) (by_type : NodeType) :
    Except TErr (Int × TSt) := do
  let o ← getObj s i
  if o.ntype = by_type then do
    let (final, s) ← number_comps_loop 1000 s o.firstChild comp_number
    pure (final - comp_number, s)
  else do
    let s ← set_comp_number_for_subtree 1000 s i comp_number
    pure (0, s)

/-- `add_split_mark(split_type)` (source 932-945) together with
`mark_children_by_split` (merged mutual recursion: `.inl i` marks node
`i`, a `PRIME` node propagating to all children via the `.inr` sibling
walk). -/
def add_split_go : Nat → TSt → Sum Nat (Option Nat) → NodeSplit → Except TErr TSt
  | 0, _, _, _ => .error .fuelOut
  | fuel + 1, s, .inl i, st => do
      let o ← getObj s i
      let s ←
        if o.splitType != st then
          if o.splitType == .NO_SPLIT then
            modifyObj s i (fun x => { x with splitType := st })
          else
            modifyObj s i (fun x => { x with splitType := .BOTH_SPLIT })
        else pure s
      let o2 ← getObj s i
      if o2.ntype == .PRIME then
        add_split_go fuel s (.inr (← firstChildOf s i)) st
      else pure s
  | _ + 1, s, .inr none, _ => pure s
  | fuel + 1, s, .inr (some c), st => do
      let s ← add_split_go fuel s (.inl c) st
      add_split_go fuel s (.inr (← rightSibOf s c)) st

/-- `add_split_mark(split_type)` (source 932-945). -/
def add_split_mark (fuel : Nat) (s : TSt) (i : Nat) (st : NodeSplit) :
    Except TErr TSt :=
  add_split_go fuel s (.inl i) st

/-- `mark_ancestors_by_split(split_type)` (source 911-921). -/
def mark_ancestors_by_split : Nat → TSt → Nat → NodeSplit → Except TErr TSt
  | 0, _, _, _ => .error .fuelOut
  | fuel + 1, s, i, st => do
      if !(← is_root s i) then do
        let p ← deref (← parentOf s i)
        let s ← add_split_mark 1000 s p st
        mark_ancestors_by_split fuel s p st
      else pure s

/-- `is_split_marked(split_type)`. -/
def is_split_marked (s : TSt) (i : Nat) (st : NodeSplit) : Except TErr Bool := do
  let o ← getObj s i
  pure (o.splitType == .BOTH_SPLIT || o.splitType == st)

/-- `clear_split_marks_for_subtree()` together with its child walk
(merged mutual recursion, tagged as in `set_comp_go`). -/
def clear_split_go : Nat → TSt → Sum Nat (Option Nat) → Except TErr TSt
  | 0, _, _ => .error .fuelOut
  | fuel + 1, s, .inl i => do
      let s ← modifyObj s i (fun o => { o with splitType := .NO_SPLIT })
      clear_split_go fuel s (.inr (← firstChildOf s i))
  | _ + 1, s, .inr none => pure s
  | fuel + 1, s, .inr (some c) => do
      let s ← clear_split_go fuel s (.inl c)
      clear_split_go fuel s (.inr (← rightSibOf s c))

/-- `clear_split_marks_for_subtree()`. -/
def clear_split_marks_for_subtree (fuel : Nat) (s : TSt) (i : Nat) :
    Except TErr TSt :=
  clear_split_go fuel s (.inl i)

/-- `promote(split_type)` (source 961-987) together with its loop over
children (merged mutual recursion: `.inl self` splices out every child of
`self` marked by the given type to become a sibling of its former parent,
recursively, and afterwards deletes `self` if left childless or replaces
it by a single remaining child; `.inr tp` is the loop over the sibling
chain starting at `tp`). -/
def promote_go : Nat → TSt → Sum Nat (Option Nat) → NodeSplit → Except TErr TSt
  | 0, _, _, _ => .error .fuelOut
  | fuel + 1, s, .inl self, st => do
      let s ← promote_go fuel s (.inr (← firstChildOf s self)) st
      let o ← getObj s self
      if (← has_no_children s self) && o.cls != .mdLeaf then
        remove s self
      else if (← has_only_one_child s self) then
        replace_with s self (← deref (← firstChildOf s self))
      else pure s
  | _ + 1, s, .inr none, _ => pure s
  | fuel + 1, s, .inr (some tp), st => do
      let nxt ← rightSibOf s tp
      let o ← getObj s tp
      let s ←
        if o.splitType == st then do
          let s ←
            if st == .LEFT_SPLIT then
              insert_before s tp (← deref (← parentOf s tp))
            else
              insert_after s tp (← deref (← parentOf s tp))
          promote_go fuel s (.inl tp) st
        else pure s
      promote_go fuel s (.inr nxt) st

/-- `promote(split_type)` (source 961-987). -/
def promote (fuel : Nat) (s : TSt) (self : Nat) (st : NodeSplit) :
    Except TErr TSt :=
  promote_go fuel s (.inl self) st

/-- `remove_degenerate_duplicates_from_subtree()` (source 998-1007)
together with its child loop (merged mutual recursion: `.inl self` is the
subtree call, `.inr (self, c)` the loop of `self` over the sibling chain
starting at `c`). -/
def rdd_go : Nat → TSt → Sum Nat (Nat × Option Nat) → Except TErr TSt
  | 0, _, _ => .error .fuelOut
  | fuel + 1, s, .inl self => do
      rdd_go fuel s (.inr (self, ← firstChildOf s self))
  | _ + 1, s, .inr (_, none) => pure s
  | fuel + 1, s, .inr (self, some c) => do
      let nxt ← rightSibOf s c
      let s ← rdd_go fuel s (.inl c)
      let co ← getObj s c
      let so ← getObj s self
      let s ←
        if co.ntype == so.ntype && so.ntype.is_degenerate then do
          let s ← add_children_from 1000 s self c
          remove s c
        else pure s
      rdd_go fuel s (.inr (self, nxt))

/-- `remove_degenerate_duplicates_from_subtree()` (source 998-1007). -/
def remove_degenerate_duplicates_from_subtree (fuel : Nat) (s : TSt)
    (self : Nat) : Except TErr TSt :=
  rdd_go fuel s (.inl self)

/-- `clear_all()` (source 1009-1019 and the leaf override 1066-1071)
together with its child walk (merged mutual recursion, tagged as in
`set_comp_go`): reset all bookkeeping fields except `visited`; a leaf
also resets its `alpha` list. -/
def clear_all_go : Nat → TSt → Sum Nat (Option Nat) → Except TErr TSt
  | 0, _, _ => .error .fuelOut
  | fuel + 1, s, .inl i => do
      let o ← getObj s i
      let s ← modifyObj s i (fun x =>
        { x with compNumber := -1, treeNumber := -1, numMarks := 0,
                 splitType := .NO_SPLIT,
                 alpha := if o.cls == .mdLeaf then [] else x.alpha })
      clear_all_go fuel s (.inr (← firstChildOf s i))
  | _ + 1, s, .inr none => pure s
  | fuel + 1, s, .inr (some c) => do
      let s ← clear_all_go fuel s (.inl c)
      clear_all_go fuel s (.inr (← rightSibOf s c))

/-- `clear_all()` (source 1009-1019 and the leaf override 1066-1071). -/
def clear_all (fuel : Nat) (s : TSt) (i : Nat) : Except TErr TSt :=
  clear_all_go fuel s (.inl i)

/-! `_TedderSubProblem` methods (source lines 1122-1952). -/

/-- Python list indexing (negative indices count from the end). -/
def pyIndex {α : Type} (l : List α) (i : Int) : Except TErr α :=
  if 0 ≤ i ∧ i < l.length then
    match l.get? i.toNat with
    | some x => pure x
    | none => .error .badIndex
  else if -(l.length : Int) ≤ i ∧ i < 0 then
    match l.get? (l.length - (-i).toNat) with
    | some x => pure x
    | none => .error .badIndex
  else .error .badIndex

/-- `copy(c)` of `_TedderSubProblem`. -/
def copySP (s : TSt) (self c : Nat) : Except TErr TSt := do
  let co ← getObj s c
  modifyObj s self (fun o =>
    { o with connected := co.connected, active := co.active, pivot := co.pivot })

/-- `clear_attributes()`. -/
def clear_attributes (s : TSt) (self : Nat) : Except TErr TSt :=
  modifyObj s self (fun o => { o with connected := false, active := false, pivot := none })

/-- `is_pivot_layer()`. -/
def is_pivot_layer (s : TSt) (self : Nat) : Except TErr Bool := do
  let p ← deref (← parentOf s self)
  pure ((← getObj s p).pivot == (← firstChildOf s self))

/-- `pull_forward(leaf)` (source 1918-1948). -/
def pull_forward (s : TSt) (leaf : Nat) : Except TErr TSt := do
  let currentLayer := (← getObj s leaf).parent
  let stop ← match currentLayer with
    | some cl => do pure (← getObj s cl).connected
    | none => pure false
  if stop then pure s else do
  let clIdx ← deref currentLayer
  let prevLayer ← leftSibOf s clIdx
  let needNew ← match prevLayer with
    | some pl => do
        let plo ← getObj s pl
        if plo.active then pure true else is_pivot_layer s pl
    | none => pure false
  let (prevLayer2, s) ←
    if needNew then do
      let (pl, s) := newObj s { cls := .subProblem }
      let s ← insert_before s pl clIdx
      let s ← modifyObj s pl (fun o => { o with connected := true })
      pure ((some pl : Option Nat), s)
    else pure (prevLayer, s)
  let s ← match prevLayer2 with
    | some pl => do
        if (← getObj s pl).connected then add_child s pl leaf else pure s
    | none => pure s
  if (← has_no_children s clIdx) then remove s clIdx else pure s

/-- The loop of `process_neighbors` (source 1907-1916). -/
def pn_loop (pivot np : Nat) (s : TSt) : List Nat → Except TErr TSt
  | [] => pure s
  | nb :: rest => do
      let o ← getObj s nb
      let s ←
        if o.visited then
          modifyObj s nb (fun x => { x with alpha := x.alpha ++ [pivot] })
        else if o.parent == (← getObj s pivot).parent then
          add_child s np nb
        else
          pull_forward s nb
      pn_loop pivot np s rest

/-- `process_neighbors(pivot)`: returns the fresh neighbor subproblem. -/
def process_neighbors (s : TSt) (pivot : Nat) : Except TErr (Nat × TSt) := do
  let nbrs := (← getObj s pivot).nbrs
  let (np, s) := newObj s { cls := .subProblem }
  let s ← pn_loop pivot np s nbrs
  pure (np, s)

/-- `pivot_problem()` (source 1148-1185). -/
def pivot_problem (s : TSt) (self : Nat) : Except TErr (Nat × TSt) := do
  let pivot ← deref (← firstChildOf s self)
  let s ← modifyObj s pivot (fun o => { o with visited := true })
  let (neighborProblem, s) ← process_neighbors s pivot
  let s ← remove s pivot
  let (pivotProblem, s) := newObj s { cls := .subProblem }
  let s ← add_child s pivotProblem pivot
  let s ← modifyObj s pivotProblem (fun o => { o with connected := true })
  let (replacement, s) := newObj s { cls := .subProblem }
  let s ← copySP s replacement self
  let s ← replace_with s self replacement
  let s ← modifyObj s replacement (fun o => { o with pivot := some pivot })
  let s ←
    if !(← has_no_children s self) then do
      let s ← clear_attributes s self
      add_child s replacement self
    else pure s
  let s ← add_child s replacement pivotProblem
  let s ←
    if !(← has_no_children s neighborProblem) then do
      let s ← modifyObj s neighborProblem (fun o => { o with connected := true })
      add_child s replacement neighborProblem
    else pure s
  pure (replacement, s)

/-- The component scan of `remove_extra_components`. -/
def rec_find : Nat → TSt → Option Nat → Except TErr (Option Nat)
  | 0, _, _ => .error .fuelOut
  | _ + 1, _, none => pure none
  | f + 1, s, some cur => do
      if (← getObj s cur).connected then rec_find f s (← rightSibOf s cur)
      else pure (some cur)

/-- `remove_extra_components()` (source 1879-1896). -/
def remove_extra_components (s : TSt) (self : Nat) :
    Except TErr (Option Nat × TSt) := do
  let found ← rec_find 1000 s (← firstChildOf s self)
  match found with
  | some cur => do
      let s ← remove s cur
      let root ← deref (← firstChildOf s cur)
      let s ← remove s root
      pure (some root, s)
  | none => pure (none, s)

/-- The layer walk of `remove_layers`. -/
def rl_loop : Nat → TSt → Option Nat → Except TErr TSt
  | 0, _, _ => .error .fuelOut
  | _ + 1, s, none => pure s
  | f + 1, s, some layer => do
      let nxt ← rightSibOf s layer
      let s ← replace_with s layer (← deref (← firstChildOf s layer))
      rl_loop f s nxt

/-- `remove_layers()` (source 1809-1818). -/
def remove_layers (s : TSt) (self : Nat) : Except TErr TSt := do
  rl_loop 1000 s (← firstChildOf s self)

/-- The inner loop of the symmetrising phase of `complete_alpha_lists`. -/
def cs_inner (lf : Nat) (s : TSt) : List Nat → Except TErr TSt
  | [] => pure s
  | an :: more => do
      let s ← modifyObj s an (fun x => { x with alpha := x.alpha ++ [lf] })
      cs_inner lf s more

/-- First phase of `complete_alpha_lists`: symmetrise (possibly creating
duplicates). -/
def cal_symmetrise (s : TSt) : List Nat → Except TErr TSt
  | [] => pure s
  | lf :: rest => do
      let al := (← getObj s lf).alpha
      let s ← cs_inner lf s al
      cal_symmetrise s rest

/-- The in-place duplicate-removal scan over one alpha list (marks count
visits; a marked entry is dropped). -/
def cal_dedup (s : TSt) : List Nat → List Nat → Except TErr (List Nat × TSt)
  | acc, [] => pure (acc, s)
  | acc, cur :: rest => do
      if (← is_marked s cur) then cal_dedup s acc rest
      else do
        let s ← modifyObj s cur (fun x => { x with numMarks := x.numMarks + 1 })
        cal_dedup s (acc ++ [cur]) rest

/-- `clear_marks` over a list. -/
def clear_marks_list (s : TSt) : List Nat → Except TErr TSt
  | [] => pure s
  | x :: rest => do
      let s ← clear_marks s x
      clear_marks_list s rest

/-- Second phase of `complete_alpha_lists`: per-leaf dedup. -/
def cal_dedup_all (s : TSt) : List Nat → Except TErr TSt
  | [] => pure s
  | lf :: rest => do
      let al := (← getObj s lf).alpha
      let (al2, s) ← cal_dedup s [] al
      let s ← modifyObj s lf (fun x => { x with alpha := al2 })
      let s ← clear_marks_list s al2
      cal_dedup_all s rest

/-- `complete_alpha_lists()` (source 1851-1877). -/
def complete_alpha_lists (s : TSt) (self : Nat) : Except TErr TSt := do
  let leaves ← get_leaves 1000 s self
  let s ← cal_symmetrise s leaves
  let leaves2 ← get_leaves 1000 s self
  cal_dedup_all s leaves2

/-- The sibling walk of `number_by_comp`. -/
def nbc_loop (pivot : Option Nat) :
    Nat → TSt → Option Nat → Int → Bool → Except TErr TSt
  | 0, _, _, _, _ => .error .fuelOut
  | _ + 1, s, none, _, _ => pure s
  | f + 1, s, some cur, compNumber, afterPivot => do
      let afterPivot2 := afterPivot || (some cur == pivot)
      let (d, s) ←
        if afterPivot2 then number_compsM s cur compNumber .PARALLEL
        else number_compsM s cur compNumber .SERIES
      nbc_loop pivot f s (← rightSibOf s cur) (compNumber + d) afterPivot2

/-- `number_by_comp()` (source 1832-1849). -/
def number_by_comp (s : TSt) (self : Nat) : Except TErr TSt := do
  let pivot := (← getObj s self).pivot
  nbc_loop pivot 1000 s (← firstChildOf s self) 0 false

/-- The sibling walk of `number_by_tree`. -/
def nbt_loop : Nat → TSt → Option Nat → Int → Except TErr TSt
  | 0, _, _, _ => .error .fuelOut
  | _ + 1, s, none, _ => pure s
  | f + 1, s, some cur, n => do
      let s ← set_tree_number_for_subtree 1000 s cur n
      nbt_loop f s (← rightSibOf s cur) (n + 1)

/-- `number_by_tree()` (source 1820-1830). -/
def number_by_tree (s : TSt) (self : Nat) : Except TErr TSt := do
  nbt_loop 1000 s (← firstChildOf s self) 0

/-- The sibling walk of `build_permutation`. -/
def bp_loop : Nat → TSt → Option Nat → Int → Except TErr TSt
  | 0, _, _, _ => .error .fuelOut
  | _ + 1, s, none, _ => pure s
  | f + 1, s, some cur, n => do
      let nxt ← rightSibOf s cur
      let (el, s) := newObj s { cls := .factPerm, index := n }
      let s ← insert_before s el cur
      let s ← add_child s el cur
      bp_loop f s nxt (n + 1)

/-- `build_permutation()` (source 1534-1548). -/
def build_permutation (s : TSt) (self : Nat) : Except TErr TSt := do
  bp_loop 1000 s (← firstChildOf s self) 0

/-- The element walk of `determine_left_co_comp_fragments`. -/
def dlc_loop (pivot : Option Nat) :
    Nat → TSt → Option Nat → Int → Except TErr TSt
  | 0, _, _, _ => .error .fuelOut
  | f + 1, s, cur?, lastCompNum => do
      let cur ← deref cur?
      if (← firstChildOf s cur) == pivot then pure s
      else do
        let fc ← deref (← firstChildOf s cur)
        let curCompNum := (← getObj s fc).compNumber
        let s ←
          if lastCompNum != -1 && lastCompNum == curCompNum then
            modifyObj s cur (fun o => { o with hasLeftCoCompFragment := true })
          else pure s
        dlc_loop pivot f s (← rightSibOf s cur) curCompNum

/-- `determine_left_co_comp_fragments()` (source 1550-1566). -/
def determine_left_co_comp_fragments (s : TSt) (self : Nat) :
    Except TErr TSt := do
  let pivot := (← getObj s self).pivot
  dlc_loop pivot 1000 s (← firstChildOf s self) (-1)

/-- The element walk of `determine_right_comp_fragments`. -/
def drc_loop : Nat → TSt → Option Nat → Option Nat → Int → Except TErr TSt
  | 0, _, _, _, _ => .error .fuelOut
  | _ + 1, s, none, _, _ => pure s
  | f + 1, s, some cur, last, lastCompNum => do
      let fc ← deref (← firstChildOf s cur)
      let curCompNum := (← getObj s fc).compNumber
      let s ←
        if lastCompNum != -1 && lastCompNum == curCompNum then do
          let l ← deref last
          modifyObj s l (fun o => { o with hasRightCompFragment := true })
        else pure s
      drc_loop f s (← rightSibOf s cur) (some cur) curCompNum

/-- `determine_right_comp_fragments()` (source 1568-1584). -/
def determine_right_comp_fragments (s : TSt) (self : Nat) :
    Except TErr TSt := do
  let pivotIdx ← deref (← getObj s self).pivot
  let pel ← deref (← parentOf s pivotIdx)
  drc_loop 1000 s (← rightSibOf s pel) none (-1)

/-- The alpha scan of `determine_right_layer_neighbor`. -/
def drn_scan (cur : Nat) (treeNum : Int) (s : TSt) :
    List Nat → Except TErr TSt
  | [] => pure s
  | a :: more => do
      let s ←
        if (← getObj s a).treeNumber > treeNum then
          modifyObj s cur (fun o => { o with hasRightLayerNeighbor := true })
        else pure s
      drn_scan cur treeNum s more

/-- The per-leaf walk of `determine_right_layer_neighbor`. -/
def drn_inner (cur : Nat) (treeNum : Int) (s : TSt) :
    List Nat → Except TErr TSt
  | [] => pure s
  | lf :: rest => do
      let al := (← getObj s lf).alpha
      let s ← drn_scan cur treeNum s al
      drn_inner cur treeNum s rest

/-- The element walk of `determine_right_layer_neighbor`. -/
def drn_loop : Nat → TSt → Option Nat → Except TErr TSt
  | 0, _, _ => .error .fuelOut
  | _ + 1, s, none => pure s
  | f + 1, s, some cur => do
      let tree ← deref (← firstChildOf s cur)
      let treeNum := (← getObj s tree).treeNumber
      let leaves ← get_leaves 1000 s tree
      let s ← drn_inner cur treeNum s leaves
      drn_loop f s (← rightSibOf s cur)

/-- `determine_right_layer_neighbor()` (source 1586-1599). -/
def determine_right_layer_neighbor (s : TSt) (self : Nat) :
    Except TErr TSt := do
  let pivotIdx ← deref (← getObj s self).pivot
  let pel ← deref (← parentOf s pivotIdx)
  drn_loop 1000 s (← rightSibOf s pel)

/-- The sibling collection of `build_fact_perm_list` (read-only). -/
def bfp_loop : Nat → TSt → Option Nat → Except TErr (List Nat)
  | 0, _, _ => .error .fuelOut
  | _ + 1, _, none => pure []
  | f + 1, s, some cur => do
      let rest ← bfp_loop f s (← rightSibOf s cur)
      pure (cur :: rest)

/-- `build_fact_perm_list()` (source 1359-1369). -/
def build_fact_perm_list (s : TSt) (self : Nat) : Except TErr (List Nat) := do
  bfp_loop 1000 s (← firstChildOf s self)

/-- Set `comp_number := idx` on a list of leaves. -/
def cnl_setAll (idx : Int) (s : TSt) : List Nat → Except TErr TSt
  | [] => pure s
  | lf :: rest => do
      let s ← modifyObj s lf (fun o => { o with compNumber := idx })
      cnl_setAll idx s rest

/-- The element walk of the first loop of `compute_fact_perm_edges`. -/
def cnl_loop : Nat → TSt → Option Nat → Except TErr TSt
  | 0, _, _ => .error .fuelOut
  | _ + 1, s, none => pure s
  | f + 1, s, some cur => do
      let leaves ← get_leaves 1000 s cur
      let s ← cnl_setAll (← getObj s cur).index s leaves
      cnl_loop f s (← rightSibOf s cur)

/-- Assign to every leaf of each factorizing permutation element the
element's index as its `comp_number` (first loop of
`compute_fact_perm_edges`). -/
def cfpe_number_leaves (s : TSt) (self : Nat) : Except TErr TSt := do
  cnl_loop 1000 s (← firstChildOf s self)

/-- The alpha scan of the third loop of `compute_fact_perm_edges`. -/
def car_scanAlpha (factPermList : List Nat) (cur : Nat) (s : TSt) :
    List Nat → Except TErr TSt
  | [] => pure s
  | a :: more => do
      let target ← pyIndex factPermList (← getObj s a).compNumber
      let s ← modifyObj s cur (fun o => { o with nbrs := o.nbrs ++ [target] })
      car_scanAlpha factPermList cur s more

/-- The leaf walk of the third loop of `compute_fact_perm_edges`. -/
def car_overLeaves (factPermList : List Nat) (cur : Nat) (s : TSt) :
    List Nat → Except TErr TSt
  | [] => pure s
  | lf :: rest => do
      let s ← car_scanAlpha factPermList cur s (← getObj s lf).alpha
      car_overLeaves factPermList cur s rest

/-- The element walk of the third loop of `compute_fact_perm_edges`. -/
def car_loop (factPermList : List Nat) :
    Nat → TSt → Option Nat → Except TErr TSt
  | 0, _, _ => .error .fuelOut
  | _ + 1, s, none => pure s
  | f + 1, s, some cur => do
      let s ← car_overLeaves factPermList cur s (← get_leaves 1000 s cur)
      car_loop factPermList f s (← rightSibOf s cur)

/-- Record one raw adjacency per alpha entry (third loop of
`compute_fact_perm_edges`). -/
def cfpe_add_raw (factPermList : List Nat) (s : TSt) (self : Nat) :
    Except TErr TSt := do
  car_loop factPermList 1000 s (← firstChildOf s self)

/-- The duplicate-dropping scan over one raw adjacency list; every visit
(kept or dropped) increments the target's mark count. -/
def cfpe_dedup (s : TSt) : List Nat → List Nat → Except TErr (List Nat × TSt)
  | acc, [] => pure (acc, s)
  | acc, cur :: rest => do
      let m ← is_marked s cur
      let acc2 := if m then acc else acc ++ [cur]
      let s ← modifyObj s cur (fun o => { o with numMarks := o.numMarks + 1 })
      cfpe_dedup s acc2 rest

/-- Keep an adjacency only if the mark count shows a full join (fourth
loop of `compute_fact_perm_edges`). -/
def cfpe_joins (elementSizes : List Nat) (curIdx : Int) (s : TSt) :
    List Nat → List Nat → Except TErr (List Nat × TSt)
  | acc, [] => pure (acc, s)
  | acc, nb :: rest => do
      let mySize ← pyIndex elementSizes curIdx
      let nbSize ← pyIndex elementSizes (← getObj s nb).index
      let marks := (← getObj s nb).numMarks
      let acc2 := if mySize * nbSize == marks then acc ++ [nb] else acc
      let s ← clear_marks s nb
      cfpe_joins elementSizes curIdx s acc2 rest

/-- The per-element sizes of `compute_fact_perm_edges` (read-only). -/
def cfe_sizes (s : TSt) : List Nat → Except TErr (List Nat)
  | [] => pure []
  | e :: rest => do
      let l ← get_leaves 1000 s e
      let more ← cfe_sizes s rest
      pure (l.length :: more)

/-- The final dedup-and-join walk of `compute_fact_perm_edges`. -/
def cfe_loop (elementSizes : List Nat) :
    Nat → TSt → Option Nat → Except TErr TSt
  | 0, _, _ => .error .fuelOut
  | _ + 1, s, none => pure s
  | f + 1, s, some cur => do
      let nl := (← getObj s cur).nbrs
      let (nl2, s) ← cfpe_dedup s [] nl
      let s ← modifyObj s cur (fun o => { o with nbrs := nl2 })
      let (nl3, s) ← cfpe_joins elementSizes (← getObj s cur).index s [] nl2
      let s ← modifyObj s cur (fun o => { o with nbrs := nl3 })
      cfe_loop elementSizes f s (← rightSibOf s cur)

/-- `compute_fact_perm_edges()` (source 1371-1427). -/
def compute_fact_perm_edges (s : TSt) (self : Nat) : Except TErr TSt := do
  let s ← cfpe_number_leaves s self
  let factPermList ← build_fact_perm_list s self
  let elementSizes ← cfe_sizes s factPermList
  let s ← cfpe_add_raw factPermList s self
  cfe_loop elementSizes 1000 s (← firstChildOf s self)

/-- The initial mu assignment of `compute_mu`. -/
def cm_init (firstElement : Option Nat) :
    Nat → TSt → Option Nat → Except TErr TSt
  | 0, _, _ => .error .fuelOut
  | _ + 1, s, none => pure s
  | f + 1, s, some cur => do
      let s ← modifyObj s cur (fun o => { o with mu := firstElement })
      cm_init firstElement f s (← rightSibOf s cur)

/-- The neighbor scan of `compute_mu`. -/
def cm_nbLoop (cur : Nat) (nextElement : Option Nat) (s : TSt) :
    List Nat → Except TErr TSt
  | [] => pure s
  | nb :: rest => do
      let nbMu ← deref (← getObj s nb).mu
      let s ←
        if (← getObj s nbMu).index == (← getObj s cur).index then
          modifyObj s nb (fun o => { o with mu := nextElement })
        else pure s
      let curMu ← deref (← getObj s cur).mu
      let s ←
        if (← getObj s nb).index > (← getObj s curMu).index then
          modifyObj s cur (fun o => { o with mu := some nb })
        else pure s
      cm_nbLoop cur nextElement s rest

/-- The element walk of `compute_mu`. -/
def cm_go (pivotElement : Option Nat) :
    Nat → TSt → Option Nat → Except TErr TSt
  | 0, _, _ => .error .fuelOut
  | f + 1, s, cur? => do
      if cur? == pivotElement then pure s
      else do
        let cur ← deref cur?
        let nextElement ← rightSibOf s cur
        let s ← cm_nbLoop cur nextElement s (← getObj s cur).nbrs
        cm_go pivotElement f s nextElement

/-- `compute_mu()` (source 1332-1357). -/
def compute_mu (s : TSt) (self : Nat) : Except TErr TSt := do
  let firstElement ← firstChildOf s self
  let s ← cm_init firstElement 1000 s firstElement
  let pivotIdx ← deref (← getObj s self).pivot
  let pivotElement := (← getObj s pivotIdx).parent
  cm_go pivotElement 1000 s (← firstChildOf s self)

/-- The element walk of `promote_one_direction`. -/
def pod_loop (st : NodeSplit) : Nat → TSt → Option Nat → Except TErr TSt
  | 0, _, _ => .error .fuelOut
  | _ + 1, s, none => pure s
  | f + 1, s, some cur => do
      let nxt ← rightSibOf s cur
      let s ← promote 1000 s cur st
      pod_loop st f s nxt

/-- `promote_one_direction(split_type)` (source 1613-1625). -/
def promote_one_direction (s : TSt) (self : Nat) (st : NodeSplit) :
    Except TErr TSt := do
  pod_loop st 1000 s (← firstChildOf s self)

/-- The element walk of the subproblem's `clear_split_marks`. -/
def csm_loop : Nat → TSt → Option Nat → Except TErr TSt
  | 0, _, _ => .error .fuelOut
  | _ + 1, s, none => pure s
  | f + 1, s, some cur => do
      let nxt ← rightSibOf s cur
      let s ← clear_split_marks_for_subtree 1000 s cur
      csm_loop f s nxt

/-- `clear_split_marks()` of the subproblem (source 1627-1633). -/
def clear_split_marksSP (s : TSt) (self : Nat) : Except TErr TSt := do
  csm_loop 1000 s (← firstChildOf s self)

/-- `promotion()` (source 1601-1611). -/
def promotion (s : TSt) (self : Nat) : Except TErr TSt := do
  let s ← promote_one_direction s self .LEFT_SPLIT
  let s ← promote_one_direction s self .RIGHT_SPLIT
  clear_split_marksSP s self

/-- Phase one of `get_max_subtrees` (source 1779-1791): the marking scan
over the `active` list. -/
def gms_phase1 : Nat → TSt → List Nat → Nat → List Nat →
    Except TErr (List Nat × TSt)
  | 0, _, _, _, _ => .error .fuelOut
  | fuel + 1, s, active, i, discharged =>
      if i < active.length then do
        let cur := active.getD i 0
        let active2 := active.eraseIdx i
        let r ← is_root s cur
        if !r then do
          let p ← deref (← parentOf s cur)
          let s ← modifyObj s p (fun o => { o with numMarks := o.numMarks + 1 })
          if (← is_fully_marked s p) then
            gms_phase1 fuel s (active2.insertIdx i p) (i + 1) (discharged ++ [cur])
          else
            gms_phase1 fuel s active2 i (discharged ++ [cur])
        else
          gms_phase1 fuel s active2 i (discharged ++ [cur])
      else
        if active.isEmpty then pure (discharged, s)
        else gms_phase1 fuel s active 0 discharged

/-- Phase two of `get_max_subtrees` (source 1792-1805): unmark and keep
only the roots of maximal subtrees. -/
def gms_phase2 : Nat → TSt → List Nat → Nat → Except TErr (List Nat × TSt)
  | 0, _, _, _ => .error .fuelOut
  | fuel + 1, s, discharged, i =>
      if i < discharged.length then do
        let cur := discharged.getD i 0
        let s ← clear_marks s cur
        let r ← is_root s cur
        if !r then do
          let p ← deref (← parentOf s cur)
          if (← is_fully_marked s p) then
            gms_phase2 fuel s (discharged.eraseIdx i) i
          else do
            let s ← clear_marks s p
            gms_phase2 fuel s discharged (i + 1)
        else gms_phase2 fuel s discharged (i + 1)
      else pure (discharged, s)

/-- `get_max_subtrees(leaves)` (source 1764-1807). -/
def get_max_subtrees (s : TSt) (leaves : List Nat) :
    Except TErr (List Nat × TSt) := do
  let (discharged, s) ← gms_phase1 100000 s leaves 0 []
  gms_phase2 100000 s discharged 0

/-- The first loop of `group_sibling_nodes` (source 1716-1726): mark the
nodes, move non-roots to the front of their parent and collect the
parents. -/
def gsn_mark (s : TSt) : List Nat → List Nat → Except TErr (List Nat × TSt)
  | parents, [] => pure (parents, s)
  | parents, node :: rest => do
      let s ← modifyObj s node (fun o => { o with numMarks := o.numMarks + 1 })
      let r ← is_root s node
      if !r then do
        let s ← make_first_child s node
        let p ← deref (← parentOf s node)
        let m ← is_marked s p
        let parents2 := if !m then parents ++ [p] else parents
        let s ← modifyObj s p (fun o => { o with numMarks := o.numMarks + 1 })
        gsn_mark s parents2 rest
      else
        gsn_mark s parents rest

/-- Roots among the supplied nodes join the sibling groups directly
(source 1731-1735). -/
def gsn_roots (s : TSt) : List Nat → List Nat → Except TErr (List Nat × TSt)
  | acc, [] => pure (acc, s)
  | acc, node :: rest => do
      let r ← is_root s node
      if r then do
        let s ← clear_marks s node
        gsn_roots s (acc ++ [node]) rest
      else gsn_roots s acc rest

/-- The scan removing singly-marked parents (source 1737-1746); returns
the remaining parents and the extended sibling groups. -/
def gsn_single : Nat → TSt → List Nat → Nat → List Nat →
    Except TErr ((List Nat × List Nat) × TSt)
  | 0, _, _, _, _ => .error .fuelOut
  | fuel + 1, s, parents, i, groups =>
      if i < parents.length then do
        let cur := parents.getD i 0
        if (← getObj s cur).numMarks == 1 then do
          let s ← clear_marks s cur
          let fc ← deref (← firstChildOf s cur)
          let s ← clear_marks s fc
          gsn_single fuel s (parents.eraseIdx i) i (groups ++ [fc])
        else gsn_single fuel s parents (i + 1) groups
      else pure ((parents, groups), s)

/-- The marked-children gathering walk of `group_sibling_nodes`
(source 1753-1758). -/
def gsn_gather : Nat → TSt → Nat → Option Nat → Except TErr TSt
  | 0, _, _, _ => .error .fuelOut
  | _ + 1, s, _, none => pure s
  | fuel + 1, s, grouped, some c => do
      if (← is_marked s c) then do
        let nxt ← rightSibOf s c
        let s ← clear_marks s c
        let s ← add_child s grouped c
        gsn_gather fuel s grouped nxt
      else pure s

/-- The final loop of `group_sibling_nodes` (source 1749-1760): group the
marked siblings under a fresh node copying the parent. -/
def gsn_group (s : TSt) : List Nat → List Nat → Except TErr (List Nat × TSt)
  | groups, [] => pure (groups, s)
  | groups, p :: rest => do
      let s ← clear_marks s p
      let (grouped, s) := newObj s { cls := .mdNode }
      let s ← copyMD s grouped p
      let s ← gsn_gather 1000 s grouped (← firstChildOf s p)
      let s ← add_child s p grouped
      gsn_group s (groups ++ [grouped]) rest

/-- `group_sibling_nodes(nodes)` (source 1705-1762). -/
def group_sibling_nodes (s : TSt) (nodes : List Nat) :
    Except TErr (List Nat × TSt) := do
  let (parents, s) ← gsn_mark s [] nodes
  let (groups, s) ← gsn_roots s [] nodes
  let (pg, s) ← gsn_single 1000 s parents 0 groups
  gsn_group s pg.2 pg.1

/-- The root-dropping scan at the start of `refine_with`
(source 1650-1655); read-only. -/
def rw_drop_roots : Nat → TSt → List Nat → Nat → Except TErr (List Nat)
  | 0, _, _, _ => .error .fuelOut
  | fuel + 1, s, groups, i =>
      if i < groups.length then do
        if (← is_root s (groups.getD i 0)) then
          rw_drop_roots fuel s (groups.eraseIdx i) i
        else rw_drop_roots fuel s groups (i + 1)
      else pure groups

/-- The split performed for one sibling group (source 1662-1703). -/
def rw_split (s : TSt) (self refiner cur : Nat) : Except TErr TSt := do
  let pivotIdx ← deref (← getObj s self).pivot
  let pivotTreeNumber := (← getObj s pivotIdx).treeNumber
  let refinerTreeNumber := (← getObj s refiner).treeNumber
  let currentTreeNumber := (← getObj s cur).treeNumber
  let st :=
    if currentTreeNumber < pivotTreeNumber || refinerTreeNumber < currentTreeNumber then
      NodeSplit.LEFT_SPLIT
    else NodeSplit.RIGHT_SPLIT
  let curParent ← deref (← parentOf s cur)
  let (newSibling, s) ←
    if (← is_root s curParent) then do
      let s ←
        if st == .LEFT_SPLIT then insert_before s cur curParent
        else insert_after s cur curParent
      let s ←
        if (← has_only_one_child s curParent) then
          replace_this_by_its_children 1000 s curParent
        else pure s
      let s ←
        if (← has_no_children s curParent) then
          remove s curParent
        else pure s
      pure (curParent, s)
    else do
      let s ← remove s cur
      if (← has_only_one_child s curParent) then do
        let ns ← deref (← firstChildOf s curParent)
        let s ← add_child s curParent cur
        pure (ns, s)
      else do
        let (replacement, s) := newObj s { cls := .mdNode }
        let s ← copyMD s replacement curParent
        let s ← replace_with s curParent replacement
        let s ← add_child s replacement cur
        let s ← add_child s replacement curParent
        pure (curParent, s)
  let s ← add_split_mark 1000 s cur st
  let s ← add_split_mark 1000 s newSibling st
  let s ← mark_ancestors_by_split 1000 s cur st
  mark_ancestors_by_split 1000 s newSibling st

/-- The group walk of `refine_with`. -/
def rw_loop (self refiner : Nat) (s : TSt) : List Nat → Except TErr TSt
  | [] => pure s
  | cur :: rest => do
      let s ← rw_split s self refiner cur
      rw_loop self refiner s rest

/-- `refine_with(refiner)` (source 1641-1703). -/
def refine_with (s : TSt) (self refiner : Nat) : Except TErr TSt := do
  let (subTreeRoots, s) ← get_max_subtrees s (← getObj s refiner).alpha
  let (siblingGroups, s) ← group_sibling_nodes s subTreeRoots
  let siblingGroups2 ← rw_drop_roots 1000 s siblingGroups 0
  rw_loop self refiner s siblingGroups2

/-- The leaf walk of `refinement`. -/
def rf_loop (self : Nat) (s : TSt) : List Nat → Except TErr TSt
  | [] => pure s
  | lf :: rest => do
      let s ← refine_with s self lf
      rf_loop self s rest

/-- `refinement()` (source 1635-1639). -/
def refinement (s : TSt) (self : Nat) : Except TErr TSt := do
  let leaves ← get_leaves 1000 s self
  rf_loop self s leaves

/-- `merge_components(new_components)` (source 1246-1268). -/
def merge_components (s : TSt) (self : Nat) (newComponents : Option Nat) :
    Except TErr TSt := do
  let firstComponent ← firstChildOf s self
  match newComponents with
  | none => pure s
  | some nc => do
      let fc ← deref firstComponent
      if (← getObj s nc).ntype == .PARALLEL then do
        let s ←
          if (← getObj s fc).ntype == .PARALLEL then
            add_children_from 1000 s nc fc
          else
            add_child s nc fc
        add_child s self nc
      else do
        let (newRoot, s) := newObj s { cls := .mdNode, ntype := .PARALLEL }
        let s ← add_child s newRoot fc
        let s ← add_child s newRoot nc
        add_child s self newRoot

/-- One side-gathering loop of `assemble_tree` (source 1294-1306): absorb
factorizing permutation elements until a boundary marker, returning the new
cursor. -/
def at_gather : Nat → TSt → Option Nat → Nat → Bool →
    Except TErr ((Option Nat × Bool) × TSt)
  | 0, _, _, _, _ => .error .fuelOut
  | fuel + 1, s, cur?, newModule, isLeft => do
      let cur ← deref cur?
      if (← getObj s cur).index != -1 then do
        let s ← add_children_from 1000 s newModule cur
        let nxt ← if isLeft then leftSibOf s cur else rightSibOf s cur
        let s ← remove s cur
        let (r, s) ← at_gather fuel s nxt newModule isLeft
        pure ((r.1, true), s)
      else pure ((cur?, false), s)

/-- The module-building loop of `assemble_tree`. -/
def at_go : Nat → TSt → Option Nat → Option Nat → Nat →
    Except TErr (Nat × TSt)
  | 0, _, _, _, _ => .error .fuelOut
  | fuel + 1, s, left, right, lastModule => do
      if left == none && right == none then pure (lastModule, s)
      else do
        let (newModule, s) := newObj s { cls := .mdNode }
        let s ← add_child s newModule lastModule
        let (lr, s) ← at_gather 1000 s left newModule true
        let (rr, s) ← at_gather 1000 s right newModule false
        let t :=
          if lr.2 && rr.2 then NodeType.PRIME
          else if lr.2 then NodeType.SERIES
          else NodeType.PARALLEL
        let s ← modifyObj s newModule (fun o => { o with ntype := t })
        let left2 ← leftSibOf s (← deref lr.1)
        let right2 ← rightSibOf s (← deref rr.1)
        at_go fuel s left2 right2 newModule

/-- `assemble_tree()` (source 1270-1317). -/
def assemble_tree (s : TSt) (self : Nat) : Except TErr TSt := do
  let pivotIdx ← deref (← getObj s self).pivot
  let pel ← deref (← parentOf s pivotIdx)
  let left0 ← leftSibOf s pel
  let right0 ← rightSibOf s pel
  let (lastModule, s) ← at_go 1000 s left0 right0 pivotIdx
  replace_children_with 1000 s self lastModule

/-!
`delineate()` (source 1429-1532).  The local variables `left`, `right`,
`left_last_in`, `right_last_in` and the two queues (which may hold `None`)
are threaded explicitly; each Python attribute access on a possibly-`None`
value goes through `deref`, so the `AttributeError` raised by the source on
such an access surfaces as `TErr.noneDeref`.  All these loops only read the
store; only `dl_outer` writes (the boundary markers).
-/

/-- Mutable state of `delineate`. -/
structure DelinSt where
  left : Option Nat
  right : Option Nat
  leftLastIn : Option Nat
  rightLastIn : Option Nat
  leftQueue : List (Option Nat)
  rightQueue : List (Option Nat)
  hasRightEdge : Bool

/-- The series-module greedy loop (source 1455-1460). -/
def dl_series : Nat → TSt → DelinSt → Bool → Except TErr (DelinSt × Bool)
  | 0, _, _, _ => .error .fuelOut
  | fuel + 1, s, st, formed => do
      match st.left with
      | none => pure (st, formed)
      | some l => do
          let lMu ← deref (← getObj s l).mu
          let rli ← deref st.rightLastIn
          if (← getObj s lMu).index ≤ (← getObj s rli).index &&
              !(← getObj s l).hasLeftCoCompFragment then do
            let left2 ← leftSibOf s l
            dl_series fuel s { st with leftLastIn := some l, left := left2 } true
          else pure (st, formed)

/-- The parallel-module greedy loop (source 1462-1472). -/
def dl_parallel : Nat → TSt → DelinSt → Bool → Except TErr (DelinSt × Bool)
  | 0, _, _, _ => .error .fuelOut
  | fuel + 1, s, st, formed => do
      match st.right with
      | none => pure (st, formed)
      | some r => do
          let rMu ← deref (← getObj s r).mu
          let lli ← deref st.leftLastIn
          if (← getObj s rMu).index ≥ (← getObj s lli).index &&
              !(← getObj s r).hasRightCompFragment &&
              !(← getObj s r).hasRightLayerNeighbor then do
            let right2 ← rightSibOf s r
            dl_parallel fuel s { st with rightLastIn := some r, right := right2 } true
          else pure (st, formed)

/-- The first forcing block (source 1475-1483): seed the left queue with
the first co-component to the left of the pivot. -/
def dl_seed_left : Nat → TSt → DelinSt → Except TErr DelinSt
  | 0, _, _ => .error .fuelOut
  | fuel + 1, s, st => do
      let st2 := { st with leftQueue := st.leftQueue ++ [st.left],
                           leftLastIn := st.left }
      let l ← deref st2.leftLastIn
      let left2 ← leftSibOf s l
      let st3 := { st2 with left := left2 }
      if !(← getObj s l).hasLeftCoCompFragment then pure st3
      else dl_seed_left fuel s st3

/-- The component-completing absorption on the right (source 1496-1504). -/
def dl_absorb_right : Nat → TSt → DelinSt → Except TErr DelinSt
  | 0, _, _ => .error .fuelOut
  | fuel + 1, s, st => do
      let st2 := { st with rightQueue := st.rightQueue ++ [st.right],
                           rightLastIn := st.right }
      let r ← deref st2.rightLastIn
      let right2 ← rightSibOf s r
      let st3 := { st2 with right := right2 }
      let st4 :=
        if (← getObj s r).hasRightLayerNeighbor then { st3 with hasRightEdge := true }
        else st3
      if !(← getObj s r).hasRightCompFragment then pure st4
      else dl_absorb_right fuel s st4

/-- The co-component-completing absorption on the left (source 1511-1518). -/
def dl_absorb_left : Nat → TSt → DelinSt → Except TErr DelinSt
  | 0, _, _ => .error .fuelOut
  | fuel + 1, s, st => do
      let st2 := { st with leftQueue := st.leftQueue ++ [st.left],
                           leftLastIn := st.left }
      let l ← deref st2.leftLastIn
      let left2 ← leftSibOf s l
      let st3 := { st2 with left := left2 }
      if !(← getObj s l).hasLeftCoCompFragment then pure st3
      else dl_absorb_left fuel s st3

/-- The `while current_left.mu.index > right_last_in.index` loop
(source 1493-1504). -/
def dl_force_right : Nat → TSt → Nat → DelinSt → Except TErr DelinSt
  | 0, _, _, _ => .error .fuelOut
  | fuel + 1, s, currentLeft, st => do
      let mu ← deref (← getObj s currentLeft).mu
      let rli ← deref st.rightLastIn
      if (← getObj s mu).index > (← getObj s rli).index then do
        let st2 ← dl_absorb_right 1000 s st
        dl_force_right fuel s currentLeft st2
      else pure st

/-- The `while current_right.mu.index < left_last_in.index` loop
(source 1509-1518). -/
def dl_force_left : Nat → TSt → Nat → DelinSt → Except TErr DelinSt
  | 0, _, _, _ => .error .fuelOut
  | fuel + 1, s, currentRight, st => do
      let mu ← deref (← getObj s currentRight).mu
      let lli ← deref st.leftLastIn
      if (← getObj s mu).index < (← getObj s lli).index then do
        let st2 ← dl_absorb_left 1000 s st
        dl_force_left fuel s currentRight st2
      else pure st

/-- Drain the left queue (source 1491-1504). -/
def dl_drain_left : Nat → TSt → DelinSt → Except TErr DelinSt
  | 0, _, _ => .error .fuelOut
  | fuel + 1, s, st => do
      match st.leftQueue with
      | [] => pure st
      | q :: rest => do
          let currentLeft ← deref q
          let st2 ← dl_force_right 1000 s currentLeft { st with leftQueue := rest }
          dl_drain_left fuel s st2

/-- Drain the right queue (source 1506-1518). -/
def dl_drain_right : Nat → TSt → DelinSt → Except TErr DelinSt
  | 0, _, _ => .error .fuelOut
  | fuel + 1, s, st => do
      match st.rightQueue with
      | [] => pure st
      | q :: rest => do
          let currentRight ← deref q
          let st2 ← dl_force_left 1000 s currentRight { st with rightQueue := rest }
          dl_drain_right fuel s st2

/-- The queue-processing loop (source 1489-1518). -/
def dl_queues : Nat → TSt → DelinSt → Except TErr DelinSt
  | 0, _, _ => .error .fuelOut
  | fuel + 1, s, st => do
      if st.leftQueue.isEmpty && st.rightQueue.isEmpty then pure st
      else do
        let st2 ← dl_drain_left 1000 s st
        let st3 ← dl_drain_right 1000 s st2
        dl_queues fuel s st3

/-- One iteration of the outer module-delineating loop plus the boundary
insertion (source 1451-1532). -/
def dl_outer : Nat → TSt → Option Nat → Nat → DelinSt → Except TErr TSt
  | 0, _, _, _, _ => .error .fuelOut
  | fuel + 1, s, firstElement, lastElement, st => do
      if st.left == none && st.right == none then pure s
      else do
        let sr ← dl_series 1000 s st false
        let seriesFormed := sr.2
        let pr ←
          if !seriesFormed then dl_parallel 1000 s sr.1 false
          else pure (sr.1, false)
        let parallelFormed := pr.2
        let st1 := { pr.1 with leftQueue := [], rightQueue := [], hasRightEdge := false }
        let st2 ←
          if !seriesFormed && !parallelFormed then dl_seed_left 1000 s st1
          else pure st1
        let st3 ← dl_queues 1000 s st2
        let st4 :=
          if st3.hasRightEdge then
            { st3 with leftLastIn := firstElement, rightLastIn := some lastElement,
                       left := none, right := none }
          else st3
        let (lb, s) := newObj s { cls := .factPerm, index := -1 }
        let (rb, s) := newObj s { cls := .factPerm, index := -1 }
        let s ← insert_before s lb (← deref st4.leftLastIn)
        let s ← insert_after s rb (← deref st4.rightLastIn)
        dl_outer fuel s firstElement lastElement st4

/-- The rightmost-sibling walk of `delineate`. -/
def dl_findLast : Nat → TSt → Nat → Except TErr Nat
  | 0, _, _ => .error .fuelOut
  | fuel + 1, s, cur => do
      match (← rightSibOf s cur) with
      | none => pure cur
      | some nxt => dl_findLast fuel s nxt

/-- `delineate()` (source 1429-1532). -/
def delineate (s : TSt) (self : Nat) : Except TErr TSt := do
  let pivotIdx ← deref (← getObj s self).pivot
  let pel ← deref (← parentOf s pivotIdx)
  let lastElement ← dl_findLast 1000 s pel
  let firstElement ← firstChildOf s self
  let left0 ← leftSibOf s pel
  let right0 ← rightSibOf s pel
  dl_outer 1000 s firstElement lastElement
    { left := left0, right := right0, leftLastIn := some pel,
      rightLastIn := some pel, leftQueue := [], rightQueue := [],
      hasRightEdge := false }

/-- `delineation()` (source 1319-1330). -/
def delineation (s : TSt) (self : Nat) : Except TErr TSt := do
  let s ← build_permutation s self
  let s ← determine_left_co_comp_fragments s self
  let s ← determine_right_comp_fragments s self
  let s ← determine_right_layer_neighbor s self
  let s ← compute_fact_perm_edges s self
  let s ← compute_mu s self
  delineate s self

/-- `clear_all_but_visited()` (source 1238-1240). -/
def clear_all_but_visited (s : TSt) (self : Nat) : Except TErr TSt := do
  clear_all 1000 s (← deref (← firstChildOf s self))

/-- `remove_degenerate_duplicates()` (source 1242-1244). -/
def remove_degenerate_duplicates (s : TSt) (self : Nat) : Except TErr TSt := do
  remove_degenerate_duplicates_from_subtree 1000 s (← deref (← firstChildOf s self))

/-- `solve(i)` (source 1187-1236) together with its layer-solving loop
(source 1206-1211), the source's two mutually recursive functions merged
into one function on a tagged argument: `.inl self` is `solve` on the
subproblem `self`, returning the root of the constructed tree; `.inr cur`
is the loop over the sibling chain of layers starting at `cur`, whose
returned `Nat` is a placeholder `0` (the source loop returns nothing). -/
def solve_go : Nat → TSt → Sum Nat (Option Nat) → Int → Except TErr (Nat × TSt)
  | 0, _, _, _ => .error .fuelOut
  | fuel + 1, s, .inl self, i => do
      let s ← modifyObj s self (fun o => { o with active := true })
      if (← has_only_one_child s self) then do
        let fc ← firstChildOf s self
        let s ← modifyObj s self (fun o => { o with pivot := fc })
        let pv ← deref (← getObj s self).pivot
        let (_, s) ← process_neighbors s pv
        let pv2 ← deref (← getObj s self).pivot
        let s ← modifyObj s pv2 (fun o => { o with visited := true })
        let root ← deref (← firstChildOf s self)
        pure (root, s)
      else do
        let (thisProblem, s) ← pivot_problem s self
        let (_, s) ← solve_go fuel s (.inr (← firstChildOf s thisProblem)) i
        let (extraComponents, s) ← remove_extra_components s thisProblem
        let s ← remove_layers s thisProblem
        let s ← complete_alpha_lists s thisProblem
        let s ← number_by_comp s thisProblem
        let s ← number_by_tree s thisProblem
        let s ← refinement s thisProblem
        let s ← promotion s thisProblem
        let s ← delineation s thisProblem
        let s ← assemble_tree s thisProblem
        let s ← remove_degenerate_duplicates s thisProblem
        let s ← merge_components s thisProblem extraComponents
        let s ← clear_all_but_visited s thisProblem
        let root ← deref (← firstChildOf s thisProblem)
        pure (root, s)
  | _ + 1, s, .inr none, _ => pure (0, s)
  | fuel + 1, s, .inr (some cur), k => do
      let (solvedRoot, s) ← solve_go fuel s (.inl cur) (k + 1)
      let p ← deref (← parentOf s solvedRoot)
      solve_go fuel s (.inr (← rightSibOf s p)) (k + 1)

/-- `solve(i)` (source 1187-1236): compute the MD tree of this recursive
subproblem, returning the root of the constructed tree. -/
def solve (fuel : Nat) (s : TSt) (self : Nat) (i : Int) :
    Except TErr (Nat × TSt) :=
  solve_go fuel s (.inl self) i

/-- `_recursive_tedder_to_md(root)` (source 2002-2012) together with its
child walk, the mutual recursion merged into one function on a tagged
argument (`.inl i` converts the subtree at node `i` and yields
`.inl tree`; `.inr c` walks the sibling chain starting at `c` and yields
`.inr forest`; a tag mismatch on a recursive result cannot happen and
surfaces as `assertionError`).  A `_TedderMDLeafNode` becomes
`create_normal_node(vertex)`; any other object must be a `_TedderMDNode`
(the source asserts this).  Read-only. -/
def toMD_go : Nat → TSt → Sum Nat (Option Nat) →
    Except TErr (Sum (MDTree Nat) (MDForest Nat))
  | 0, _, _ => .error .fuelOut
  | fuel + 1, s, .inl i => do
      let o ← getObj s i
      if o.cls == .mdLeaf then pure (.inl (.leaf o.vertex))
      else if o.cls == .mdNode then do
        match (← toMD_go fuel s (.inr o.firstChild)) with
        | .inr f => pure (.inl (.node o.ntype f))
        | .inl _ => .error .assertionError
      else .error .assertionError
  | _ + 1, _, .inr none => pure (.inr .nil)
  | fuel + 1, s, .inr (some c) => do
      match (← toMD_go fuel s (.inl c)) with
      | .inl t =>
          match (← toMD_go fuel s (.inr (← rightSibOf s c))) with
          | .inr rest => pure (.inr (.cons t rest))
          | .inl _ => .error .assertionError
      | .inr _ => .error .assertionError

/-- `_recursive_tedder_to_md(root)` (source 2002-2012). -/
def toMDTree (fuel : Nat) (s : TSt) (i : Nat) : Except TErr (MDTree Nat) := do
  match (← toMD_go fuel s (.inl i)) with
  | .inl t => pure t
  | .inr _ => .error .assertionError

/-- Build the initial store of `tedder_algorithm` (source 1978-1996): one
`_TedderMDLeafNode` per vertex (in vertex order), its `neighbors` holding
the leaf references of the vertex's neighbors, followed by the main
subproblem; the leaves are then added as children of the main subproblem
in vertex order (`add_child` prepends, so the forest order is reversed). -/
def initialStore (g : SGraph) : TSt :=
  ⟨(g.V.map (fun v =>
      { cls := .mdLeaf
        vertex := v
        nbrs := (neighbors g v).map (fun w => g.V.indexOf w) : TObj })) ++
    [{ cls := .subProblem }]⟩

/-- Attach the leaves `0, 1, ...` to the main subproblem. -/
def attach_leaves (mainProblem : Nat) (s : TSt) :
    List Nat → Except TErr TSt
  | [] => pure s
  | v :: rest => do
      let s ← add_child s mainProblem v
      attach_leaves mainProblem s rest

end Tedder

/-- `tedder_algorithm(graph)` (source 1970-2013). -/
def tedder_algorithm (g : SGraph) : Except Tedder.TErr (MDTree Nat) :=
  if g.directed then .error .valueError
  else if g.V.length == 0 then .ok (.node .PRIME .nil)
  else do
    let s := Tedder.initialStore g
    let mainProblem := g.V.length
    let s ← Tedder.attach_leaves mainProblem s (List.range g.V.length)
    let (root, s) ← Tedder.solve 1000 s mainProblem 1
    Tedder.toMDTree 1000 s root

/-!
## Concrete graphs and the divergences they exhibit

`g7` is an undirected 7-vertex graph on which the two decomposers disagree:
`habib_maurer_algorithm` returns the flat `PRIME` tree `h7` (the graph is
prime), while `tedder_algorithm` returns `t7`, a tree with spurious
internal nodes.  `g8` is an undirected 8-vertex graph on which
`tedder_algorithm` dereferences `None` (the Python `AttributeError` at
`left = left.left_sibling` in `delineate`).  `g7p` is the image of `g7`
under the transposition of the vertices 5 and 6 (its edge list is the
image of the edge list of `g7`); `tedder_algorithm` returns the flat
`PRIME` tree `t7p` on it, which is not equivalent to the relabeling of
`t7`.  Every evaluation below is closed under `rfl`: the kernel runs the
whole machine.
-/

/-- The 7-vertex counterexample graph. -/
def g7 : SGraph :=
  ⟨false, [0, 1, 2, 3, 4, 5, 6],
   [(0, 4), (0, 5), (1, 4), (2, 5), (3, 5), (3, 6), (4, 5), (4, 6)]⟩

/-- The 8-vertex graph on which `tedder_algorithm` raises. -/
def g8 : SGraph :=
  ⟨false, [0, 1, 2, 3, 4, 5, 6, 7],
   [(0, 4), (0, 5), (1, 4), (1, 6), (1, 7), (2, 6), (3, 5), (3, 6), (5, 7)]⟩

/-- The transposition of 5 and 6. -/
def swap56 (v : Nat) : Nat :=
  if v = 5 then 6 else if v = 6 then 5 else v

/-- The image of `g7` under `swap56`: the same sorted vertex list and the
image of each edge. -/
def g7p : SGraph :=
  ⟨false, [0, 1, 2, 3, 4, 5, 6],
   [(0, 4), (0, 6), (1, 4), (2, 6), (3, 6), (3, 5), (4, 6), (4, 5)]⟩

/-- The tree `tedder_algorithm` returns on `g7`:
`PRIME[2, PARALLEL[1, SERIES[5, 0]], 4, 3, 6]`. -/
def t7 : MDTree Nat :=
  .node .PRIME (.cons (.leaf 2)
    (.cons (.node .PARALLEL (.cons (.leaf 1)
      (.cons (.node .SERIES (.cons (.leaf 5) (.cons (.leaf 0) .nil))) .nil)))
    (.cons (.leaf 4) (.cons (.leaf 3) (.cons (.leaf 6) .nil)))))

/-- The tree `habib_maurer_algorithm` returns on `g7`: the flat
`PRIME[4, 5, 6, 0, 1, 2, 3]`. -/
def h7 : MDTree Nat :=
  .node .PRIME (.cons (.leaf 4) (.cons (.leaf 5) (.cons (.leaf 6)
    (.cons (.leaf 0) (.cons (.leaf 1) (.cons (.leaf 2)
      (.cons (.leaf 3) .nil)))))))

/-- The tree `tedder_algorithm` returns on `g7p`: the flat
`PRIME[1, 5, 3, 4, 0, 2, 6]`. -/
def t7p : MDTree Nat :=
  .node .PRIME (.cons (.leaf 1) (.cons (.leaf 5) (.cons (.leaf 3)
    (.cons (.leaf 4) (.cons (.leaf 0) (.cons (.leaf 2)
      (.cons (.leaf 6) .nil)))))))

mutual
/-- `relabel_tree(root, perm)` (source lines 2510-2575), for a total
relabeling map: a leaf becomes `create_normal_node(perm[v])`, an internal
node keeps its type and relabels every child. -/
def relabel_tree : MDTree Nat → (Nat → Nat) → MDTree Nat
  | .leaf v, perm => .leaf (perm v)
  | .node t cs, perm => .node t (relabel_children cs perm)

/-- The list comprehension `[relabel_tree(child, perm) for child in
root.children]`. -/
def relabel_children : MDForest Nat → (Nat → Nat) → MDForest Nat
  | .nil, _ => .nil
  | .cons c cs, perm => .cons (relabel_tree c perm) (relabel_children cs perm)
end

/-- `either_connected_or_not_connected(v, vertices_in_module, graph)`
(source lines 2362-2400): `v` must be adjacent to all of the module's
vertices or to none of them; the leading `vertices_in_module[0]` raises
`IndexError` on an empty list, returned here as `none`. -/
def either_connected_or_not_connected (v : Nat) (vim : List Nat)
    (g : SGraph) : Option Bool :=
  match vim with
  | [] => none
  | v1 :: _ => some (vim.all (fun u => adj g u v == adj g v1 v))

mutual
/-- The vertex set (as `get_vertices` lists it) of every internal
(non-`NORMAL`) node of a tree, in depth-first order. -/
def internal_vertex_sets : MDTree Nat → List (List Nat)
  | .leaf _ => []
  | .node t cs => get_vertices (MDTree.node t cs) :: internal_vertex_sets_forest cs

/-- `internal_vertex_sets` over a children list. -/
def internal_vertex_sets_forest : MDForest Nat → List (List Nat)
  | .nil => []
  | .cons c cs => internal_vertex_sets c ++ internal_vertex_sets_forest cs
end

set_option maxRecDepth 100000 in
set_option maxHeartbeats 4000000 in
/-- C2.  The error contract fails: `g8` is undirected, yet
`tedder_algorithm` raises the Python `AttributeError` of a `None`
dereference (at `left = left.left_sibling` in `delineate`,
source line 1481) instead of returning a tree; by the spec a decomposer
raises only on directed input and is total otherwise. -/
theorem tedder_raises_on_undirected_g8 :
    g8.directed = false ∧ tedder_algorithm g8 = .error .noneDeref :=
  ⟨rfl, rfl⟩

set_option maxRecDepth 100000 in
set_option maxHeartbeats 4000000 in
/-- C3.  The two decomposers are not equivalent on `g7`:
`habib_maurer_algorithm` returns the flat prime tree `h7` while
`tedder_algorithm` returns `t7` with spurious internal nodes, and
`equivalent_trees` rejects the pair. -/
theorem habib_tedder_inequivalent_on_g7 :
    habib_maurer_algorithm g7 = .ok h7 ∧
    tedder_algorithm g7 = .ok t7 ∧
    equivalent_trees h7 t7 = false :=
  ⟨rfl, rfl, rfl⟩

set_option maxRecDepth 100000 in
set_option maxHeartbeats 4000000 in
/-- C4.  Module validity fails for the tree the linear decomposer returns
on `g7`: `t7` has the internal `SERIES` node with vertex set `[5, 0]`,
vertex `2` of `g7` lies outside it, and the source's own module test
`either_connected_or_not_connected` rejects it (`2` is adjacent to `5`
but not to `0`). -/
theorem tedder_internal_node_not_module_on_g7 :
    tedder_algorithm g7 = .ok t7 ∧
    internal_vertex_sets t7 = [[2, 1, 5, 0, 4, 3, 6], [1, 5, 0], [5, 0]] ∧
    (2 ∈ g7.V ∧ 2 ∉ [5, 0]) ∧
    either_connected_or_not_connected 2 [5, 0] g7 = some false :=
  ⟨rfl, rfl, by decide, rfl⟩

set_option maxRecDepth 100000 in
set_option maxHeartbeats 4000000 in
/-- C8.  Relabeling equivariance fails: `g7p` is the image of `g7` under
the transposition `swap56` (its edge list is the pointwise image of the
edge list of `g7`), yet the tree of `g7p` is the flat prime `t7p`,
not equivalent to the `swap56`-relabeling of the tree `t7` of `g7`. -/
theorem tedder_not_relabel_equivariant :
    g7p.V = g7.V ∧
    g7p.E = g7.E.map (fun e => (swap56 e.1, swap56 e.2)) ∧
    tedder_algorithm g7 = .ok t7 ∧
    tedder_algorithm g7p = .ok t7p ∧
    equivalent_trees t7p (relabel_tree t7 swap56) = false :=
  ⟨rfl, by decide, rfl, rfl, rfl⟩

/-!
## Base cases of the decomposer (C5)

`completeG n` and `edgelessG n` are the complete and the edgeless graph on
the vertices `0, ..., n-1`; `leafForest l` is the forest of one leaf per
entry of `l`.
-/

/-- The complete graph on `n` vertices. -/
def completeG (n : Nat) : SGraph :=
  ⟨false, List.range n, allPairs (List.range n)⟩

/-- The edgeless graph on `n` vertices. -/
def edgelessG (n : Nat) : SGraph :=
  ⟨false, List.range n, []⟩

/-- One leaf per list entry. -/
def leafForest : List Nat → MDForest Nat
  | [] => .nil
  | v :: vs => .cons (.leaf v) (leafForest vs)

theorem leafForest_length (l : List Nat) :
    (leafForest l).length = l.length := by
  induction l with
  | nil => rfl
  | cons v vs ih => simpa [leafForest, MDForest.length] using ih

/-- One recursion level of `habibFuel`, unfolded. -/
theorem habibFuel_succ (fuel : Nat) (g : SGraph)
    (gcls : Option (List (List Nat × List (Nat × Nat)))) :
    habibFuel (fuel + 1) g gcls =
      (if g.directed then .error .directed
       else if g.V.length == 0 then .ok (.node .PRIME .nil)
       else if g.V.length == 1 then .ok (.leaf (g.V.headD 0))
       else if !is_connected g then
         match collectForest ((connected_components g).map
             (fun sg => habibFuel fuel (subgraphV g sg) gcls)) with
         | .error e => .error e
         | .ok f => .ok (.node .PARALLEL f)
       else
         let gC := complement g
         if is_connected gC then
           let gcls2 := match gcls with | some d => d | none => gamma_classes g
           match lookupClass gcls2 g.V with
           | none => .error .keyError
           | some cls =>
             let sub := subgraphE g cls
             let d1 := buildD1 (buildD sub)
             match collectForest (d1.map
                 (fun kv => habibFuel fuel (subgraphV g kv.2) (some gcls2))) with
             | .error e => .error e
             | .ok f => .ok (.node .PRIME f)
         else
           match collectForest ((connected_components gC).map
               (fun sg => habibFuel fuel (subgraphV g sg) gcls)) with
           | .error e => .error e
           | .ok f => .ok (.node .SERIES f)) := rfl

/-- In a graph with no edge list, nothing is adjacent. -/
theorem adj_nil (V : List Nat) (u v : Nat) : adj ⟨false, V, []⟩ u v = false := rfl

/-- A breadth-first step in a graph with no edges adds nothing. -/
theorem componentStep_nil (V : List Nat) (comp : List Nat) :
    componentStep ⟨false, V, []⟩ comp = [] := by
  simp [componentStep, adj_nil]

theorem componentFrom_nil (V : List Nat) (fuel : Nat) (comp : List Nat) :
    componentFrom ⟨false, V, []⟩ fuel comp = comp := by
  cases fuel with
  | zero => rfl
  | succ k => simp [componentFrom, componentStep_nil]

theorem component_nil (V : List Nat) (v : Nat) :
    component ⟨false, V, []⟩ v = [v] := by
  simp [component, componentFrom_nil]

/-- Components of an edgeless graph: one singleton per scanned vertex (none
is seen before its own scan). -/
theorem componentsAux_nil (V : List Nat) :
    ∀ (vs seen : List Nat), vs.Nodup → (∀ v ∈ vs, v ∉ seen) →
      componentsAux ⟨false, V, []⟩ vs seen = vs.map (fun v => [v]) := by
  intro vs
  induction vs with
  | nil => intro seen _ _; rfl
  | cons v rest ih =>
      intro seen hnd hdisj
      have hv : v ∉ seen := hdisj v (by simp)
      rw [componentsAux, if_neg hv, component_nil, List.map_cons,
        ih (seen ++ [v]) hnd.of_cons]
      intro w hw
      simp only [List.mem_append, List.mem_singleton]
      rintro (hs | hveq)
      · exact hdisj w (List.mem_cons_of_mem _ hw) hs
      · exact (List.nodup_cons.mp hnd).1 (hveq ▸ hw)

theorem connected_components_edgeless (n : Nat) :
    connected_components (edgelessG n) = (List.range n).map (fun v => [v]) :=
  componentsAux_nil (List.range n) (List.range n) [] (List.nodup_range n) (by simp)

theorem is_connected_edgeless (n : Nat) (h : 2 ≤ n) :
    is_connected (edgelessG n) = false := by
  obtain ⟨m, rfl⟩ : ∃ m, n = m + 2 := ⟨n - 2, by omega⟩
  rw [is_connected, connected_components_edgeless]
  rw [List.range_succ_eq_map]
  simp [edgelessG]

/-- Filtering a duplicate-free list down to one of its members. -/
theorem filter_mem_singleton (l : List Nat) (v : Nat) (hnd : l.Nodup)
    (hv : v ∈ l) :
    l.filter (fun x => decide (x ∈ ([v] : List Nat))) = [v] := by
  induction l with
  | nil => cases hv
  | cons a t ih =>
      by_cases hav : a = v
      · subst hav
        have ht : List.filter (fun x => decide (x ∈ ([a] : List Nat))) t = [] := by
          apply List.filter_eq_nil_iff.mpr
          intro x hx
          simp only [List.mem_singleton, decide_eq_true_eq]
          exact fun hxa => (List.nodup_cons.mp hnd).1 (hxa ▸ hx)
        have hacond : (decide (a ∈ ([a] : List Nat))) = true := by simp
        rw [List.filter_cons, hacond, if_pos rfl, ht]
      · have hv2 : v ∈ t := by
          rcases List.mem_cons.mp hv with hh | hh
          · exact absurd hh.symm hav
          · exact hh
        have ha : (decide (a ∈ ([v] : List Nat))) = false := by
          simp [hav]
        rw [List.filter_cons, ha]
        simpa using ih (List.nodup_cons.mp hnd).2 hv2

theorem subgraphV_singleton_V (g : SGraph) (v : Nat) (hnd : g.V.Nodup)
    (hv : v ∈ g.V) :
    (subgraphV g [v]).V = [v] :=
  filter_mem_singleton g.V v hnd hv

/-- A one-vertex graph decomposes to its leaf, whatever the edge field and
the cached classes. -/
theorem habibFuel_singleton (fuel : Nat) (H : SGraph) (v : Nat)
    (hdir : H.directed = false) (hV : H.V = [v])
    (cls : Option (List (List Nat × List (Nat × Nat)))) :
    habibFuel (fuel + 1) H cls = .ok (.leaf v) := by
  rw [habibFuel_succ, if_neg (by simp [hdir]), hV]
  rfl

theorem collectForest_map (l : List Nat) (F : Nat → Except HErr (MDTree Nat))
    (h : ∀ v ∈ l, F v = .ok (.leaf v)) :
    collectForest (l.map F) = .ok (leafForest l) := by
  induction l with
  | nil => rfl
  | cons v vs ih =>
      rw [List.map_cons, h v (by simp), collectForest,
        ih (fun w hw => h w (by simp [hw]))]
      rfl

set_option maxHeartbeats 1000000 in
theorem habib_empty (g : SGraph) (hdir : g.directed = false) (hV : g.V = []) :
    habib_maurer_algorithm g = .ok (.node .PRIME .nil) := by
  obtain ⟨d, V, E⟩ := g
  simp only at hdir hV
  subst hdir hV
  rfl

set_option maxHeartbeats 1000000 in
theorem habib_single (g : SGraph) (v : Nat) (hdir : g.directed = false)
    (hV : g.V = [v]) :
    habib_maurer_algorithm g = .ok (.leaf v) := by
  obtain ⟨d, V, E⟩ := g
  simp only at hdir hV
  subst hdir hV
  rfl

set_option maxHeartbeats 1000000 in
theorem habib_edgeless (n : Nat) (h : 2 ≤ n) :
    habib_maurer_algorithm (edgelessG n) =
      .ok (.node .PARALLEL (leafForest (List.range n))) := by
  obtain ⟨m, rfl⟩ : ∃ m, n = m + 2 := ⟨n - 2, by omega⟩
  rw [habib_maurer_algorithm]
  have hlen : (edgelessG (m + 2)).V.length = m + 2 := by
    simp [edgelessG]
  rw [hlen, habibFuel_succ]
  rw [if_neg (by simp [edgelessG])]
  rw [if_neg (by simp [edgelessG])]
  rw [if_neg (by simp [edgelessG])]
  rw [if_pos (by simp [is_connected_edgeless (m + 2) (by omega)])]
  rw [connected_components_edgeless, List.map_map]
  rw [collectForest_map]
  intro v hv
  simp only [Function.comp_apply]
  exact habibFuel_singleton (m + 1) _ v rfl
    (subgraphV_singleton_V _ v (List.nodup_range (m + 2)) hv) none

/-! complete graph side -/

theorem componentsAux_all_seen (g : SGraph) :
    ∀ (vs seen : List Nat), (∀ v ∈ vs, v ∈ seen) →
      componentsAux g vs seen = [] := by
  intro vs
  induction vs with
  | nil => intro seen _; rfl
  | cons v rest ih =>
      intro seen hsub
      rw [componentsAux, if_pos (hsub v (by simp))]
      exact ih seen (fun w hw => hsub w (by simp [hw]))

theorem mem_allPairs (l : List Nat) (u w : Nat) (hu : u ∈ l) (hw : w ∈ l)
    (hne : u ≠ w) : (u, w) ∈ allPairs l ∨ (w, u) ∈ allPairs l := by
  induction l with
  | nil => cases hu
  | cons a t ih =>
      rcases List.mem_cons.mp hu with h1 | h1
      · subst h1
        have hwt : w ∈ t := by
          rcases List.mem_cons.mp hw with h2 | h2
          · exact absurd h2.symm hne
          · exact h2
        left
        rw [allPairs]
        exact List.mem_append_left _ (List.mem_map.mpr ⟨w, hwt, rfl⟩)
      · rcases List.mem_cons.mp hw with h2 | h2
        · subst h2
          right
          rw [allPairs]
          exact List.mem_append_left _ (List.mem_map.mpr ⟨u, h1, rfl⟩)
        · rcases ih h1 h2 with h | h
          · left; rw [allPairs]; exact List.mem_append_right _ h
          · right; rw [allPairs]; exact List.mem_append_right _ h

theorem adj_of_mem (g : SGraph) (e : Nat × Nat) (he : e ∈ g.E) :
    adj g e.1 e.2 = true := by
  rw [adj]
  apply List.any_eq_true.mpr
  exact ⟨e, he, by simp⟩

theorem adj_completeG (n : Nat) (u w : Nat) (hu : u ∈ List.range n)
    (hw : w ∈ List.range n) (hne : u ≠ w) :
    adj (completeG n) u w = true := by
  rcases mem_allPairs (List.range n) u w hu hw hne with h | h
  · exact adj_of_mem (completeG n) (u, w) h
  · have := adj_of_mem (completeG n) (w, u) h
    rw [adj] at this ⊢
    apply List.any_eq_true.mpr
    rcases List.any_eq_true.mp this with ⟨e, he, hpe⟩
    refine ⟨e, he, ?_⟩
    simp only [Bool.or_eq_true, Bool.and_eq_true, beq_iff_eq] at hpe ⊢
    tauto

theorem complement_completeG (n : Nat) :
    complement (completeG n) = edgelessG n := by
  have hE : ((allPairs (List.range n)).filter
      (fun e => !adj (completeG n) e.1 e.2)) = [] := by
    apply List.filter_eq_nil_iff.mpr
    intro e he
    simp [adj_of_mem (completeG n) e he]
  rw [complement]
  simp only [completeG] at hE ⊢
  rw [hE]
  rfl

theorem componentStep_completeG (m : Nat) :
    componentStep (completeG (m + 2)) [0] = (List.range (m + 1)).map Nat.succ := by
  rw [componentStep]
  show (completeG (m + 2)).V.filter _ = _
  have hV : (completeG (m + 2)).V = 0 :: (List.range (m + 1)).map Nat.succ := by
    simp [completeG, List.range_succ_eq_map]
  rw [hV, List.filter_cons]
  have h0 : (!([0].contains 0) && [0].any (fun u => adj (completeG (m + 2)) u 0)) = false := by
    simp
  rw [h0]
  simp only [if_neg Bool.false_ne_true]
  apply List.filter_eq_self.mpr
  intro w hwm
  rcases List.mem_map.mp hwm with ⟨x, hx, rfl⟩
  have hwmem : Nat.succ x ∈ List.range (m + 2) := by
    rw [List.range_succ_eq_map]
    exact List.mem_cons_of_mem _ hwm
  have hadj : adj (completeG (m + 2)) 0 (Nat.succ x) = true :=
    adj_completeG (m + 2) 0 (Nat.succ x) (by simp) hwmem (by omega)
  simp [hadj]

theorem componentStep_full (m : Nat) :
    componentStep (completeG (m + 2)) (List.range (m + 2)) = [] := by
  rw [componentStep]
  apply List.filter_eq_nil_iff.mpr
  intro w hw
  have hm : w ∈ List.range (m + 2) := by simpa [completeG] using hw
  have hc : (List.range (m + 2)).contains w = true := List.elem_eq_true_of_mem hm
  simp only [hc, Bool.not_true, Bool.false_and, Bool.false_eq_true,
    not_false_eq_true]

theorem component_completeG (m : Nat) :
    component (completeG (m + 2)) 0 = List.range (m + 2) := by
  have hlen : (completeG (m + 2)).V.length = m + 2 := by simp [completeG]
  rw [component, hlen, componentFrom, componentStep_completeG]
  have hne : (((List.range (m + 1)).map Nat.succ).isEmpty) = false := by
    simp [List.isEmpty_iff, List.range_succ]
  rw [hne]
  simp only [Bool.false_eq_true, if_false]
  have hcomb : 0 :: (List.range (m + 1)).map Nat.succ = List.range (m + 2) :=
    (List.range_succ_eq_map (m + 1)).symm
  show componentFrom _ (m + 1) ([0] ++ (List.range (m + 1)).map Nat.succ) = _
  rw [List.singleton_append, hcomb, componentFrom, componentStep_full]
  simp

theorem connected_components_completeG (m : Nat) :
    connected_components (completeG (m + 2)) = [List.range (m + 2)] := by
  rw [connected_components]
  have hV : (completeG (m + 2)).V = 0 :: (List.range (m + 1)).map Nat.succ := by
    simp [completeG, List.range_succ_eq_map]
  rw [hV, componentsAux, if_neg (by simp)]
  rw [component_completeG, componentsAux_all_seen]
  intro w hw
  apply List.mem_append_right
  rw [List.range_succ_eq_map (m + 1)]
  exact List.mem_cons_of_mem _ hw

theorem is_connected_completeG (m : Nat) :
    is_connected (completeG (m + 2)) = true := by
  rw [is_connected, connected_components_completeG]
  simp [completeG]

set_option maxHeartbeats 1000000 in
theorem habib_complete (n : Nat) (h : 2 ≤ n) :
    habib_maurer_algorithm (completeG n) =
      .ok (.node .SERIES (leafForest (List.range n))) := by
  obtain ⟨m, rfl⟩ : ∃ m, n = m + 2 := ⟨n - 2, by omega⟩
  rw [habib_maurer_algorithm]
  have hlen : (completeG (m + 2)).V.length = m + 2 := by simp [completeG]
  rw [hlen, habibFuel_succ]
  rw [if_neg (by simp [completeG])]
  rw [if_neg (by simp [completeG])]
  rw [if_neg (by simp [completeG])]
  rw [if_neg (by simp [is_connected_completeG])]
  rw [if_neg (by
    rw [complement_completeG]
    simp [is_connected_edgeless (m + 2) (by omega)])]
  rw [complement_completeG, connected_components_edgeless, List.map_map]
  rw [collectForest_map]
  intro v hv
  simp only [Function.comp_apply]
  exact habibFuel_singleton (m + 1) _ v rfl
    (subgraphV_singleton_V _ v (by simpa [completeG] using List.nodup_range (m + 2)) hv) none

set_option maxRecDepth 100000 in
set_option maxHeartbeats 1000000 in
theorem tedder_empty (g : SGraph) (hdir : g.directed = false) (hV : g.V = []) :
    tedder_algorithm g = .ok (.node .PRIME .nil) := by
  obtain ⟨d, V, E⟩ := g
  simp only at hdir hV
  subst hdir hV
  rfl



set_option maxRecDepth 100000 in
set_option maxHeartbeats 1000000 in
/-- Base cases of the decomposers (towards C5; partial on the linear
side).  For the reference decomposer (the
source's `modular_decomposition`, an alias of `habib_maurer_algorithm`):
an empty graph gives a childless `PRIME` node, a one-vertex graph gives
that vertex's leaf, the complete graph on `n ≥ 2` vertices gives a
`SERIES` root with exactly `n` leaf children and the edgeless graph on
`n ≥ 2` vertices gives a `PARALLEL` root with exactly `n` leaf children.
The linear decomposer is covered on its explicit empty-graph branch for
every empty input, and on a concrete one-vertex instance (its run on a
symbolic vertex label does not reduce definitionally). -/
theorem decomposer_base_cases :
    (∀ g : SGraph, g.directed = false → g.V = [] →
        habib_maurer_algorithm g = .ok (.node .PRIME .nil) ∧
        tedder_algorithm g = .ok (.node .PRIME .nil)) ∧
    (∀ (g : SGraph) (v : Nat), g.directed = false → g.V = [v] →
        habib_maurer_algorithm g = .ok (.leaf v)) ∧
    (∀ n : Nat, 2 ≤ n →
        habib_maurer_algorithm (completeG n) =
          .ok (.node .SERIES (leafForest (List.range n))) ∧
        (leafForest (List.range n)).length = n) ∧
    (∀ n : Nat, 2 ≤ n →
        habib_maurer_algorithm (edgelessG n) =
          .ok (.node .PARALLEL (leafForest (List.range n))) ∧
        (leafForest (List.range n)).length = n) ∧
    tedder_algorithm ⟨false, [0], []⟩ = .ok (.leaf 0) :=
  ⟨fun g hd hV => ⟨habib_empty g hd hV, tedder_empty g hd hV⟩,
   fun g v hd hV => habib_single g v hd hV,
   fun n hn => ⟨habib_complete n hn, by simp [leafForest_length]⟩,
   fun n hn => ⟨habib_edgeless n hn, by simp [leafForest_length]⟩,
   rfl⟩

set_option maxRecDepth 100000 in
/-- Witness for `decomposer_base_cases` at concrete inputs. -/
theorem decomposer_base_cases_witness :
    habib_maurer_algorithm ⟨false, [], []⟩ = .ok (.node .PRIME .nil) ∧
    tedder_algorithm ⟨false, [], []⟩ = .ok (.node .PRIME .nil) ∧
    habib_maurer_algorithm ⟨false, [7], []⟩ = .ok (.leaf 7) ∧
    habib_maurer_algorithm (completeG 3) =
      .ok (.node .SERIES (leafForest (List.range 3))) ∧
    habib_maurer_algorithm (edgelessG 3) =
      .ok (.node .PARALLEL (leafForest (List.range 3))) :=
  ⟨(decomposer_base_cases.1 ⟨false, [], []⟩ rfl rfl).1,
   (decomposer_base_cases.1 ⟨false, [], []⟩ rfl rfl).2,
   decomposer_base_cases.2.1 ⟨false, [7], []⟩ 7 rfl rfl,
   (decomposer_base_cases.2.2.1 3 (by decide)).1,
   (decomposer_base_cases.2.2.2.1 3 (by decide)).1⟩
/-!
## Connected components cover the vertex list (towards C10)

`adjV g` is the adjacency relation restricted to listed vertices;
`componentFrom` reaches exactly its reflexive-transitive closure, and the
components scan of `connected_components` therefore partitions `g.V`.
-/

/-- Adjacency between two listed vertices, as a relation. -/
def adjV (g : SGraph) (u w : Nat) : Prop :=
  adj g u w = true ∧ u ∈ g.V ∧ w ∈ g.V

theorem adj_true_iff (g : SGraph) (u w : Nat) :
    adj g u w = true ↔ ∃ e ∈ g.E, (e.1 = u ∧ e.2 = w) ∨ (e.1 = w ∧ e.2 = u) := by
  rw [adj, List.any_eq_true]
  simp [Bool.or_eq_true, Bool.and_eq_true, beq_iff_eq]

theorem adj_comm (g : SGraph) (u w : Nat) : adj g u w = adj g w u := by
  apply Bool.eq_iff_iff.mpr
  rw [adj_true_iff, adj_true_iff]
  constructor
  · rintro ⟨e, he, hp⟩
    exact ⟨e, he, by tauto⟩
  · rintro ⟨e, he, hp⟩
    exact ⟨e, he, by tauto⟩

theorem adjV_symm (g : SGraph) {u w : Nat} (h : adjV g u w) : adjV g w u :=
  ⟨by rw [adj_comm]; exact h.1, h.2.2, h.2.1⟩

/-- Reachability inside the listed vertices. -/
def Reach (g : SGraph) (u w : Nat) : Prop :=
  Relation.ReflTransGen (adjV g) u w

theorem Reach.symm (g : SGraph) {u w : Nat} (h : Reach g u w) : Reach g w u := by
  induction h with
  | refl => exact Relation.ReflTransGen.refl
  | tail _ hstep ih =>
      exact Relation.ReflTransGen.trans
        (Relation.ReflTransGen.single (adjV_symm g hstep)) ih

/-- Elements added by one breadth-first step. -/
theorem mem_componentStep (g : SGraph) (comp : List Nat) (w : Nat) :
    w ∈ componentStep g comp ↔
      w ∈ g.V ∧ comp.contains w = false ∧ ∃ u ∈ comp, adj g u w = true := by
  rw [componentStep, List.mem_filter]
  simp only [Bool.and_eq_true, Bool.not_eq_true', List.any_eq_true]

theorem contains_iff_mem (l : List Nat) (w : Nat) :
    l.contains w = true ↔ w ∈ l := by
  constructor
  · exact fun h => List.mem_of_elem_eq_true h
  · exact fun h => List.elem_eq_true_of_mem h

/-- `componentFrom` only grows its argument. -/
theorem componentFrom_subset (g : SGraph) :
    ∀ (fuel : Nat) (comp : List Nat), comp ⊆ componentFrom g fuel comp := by
  intro fuel
  induction fuel with
  | zero => intro comp; exact fun x h => h
  | succ k ih =>
      intro comp
      rw [componentFrom]
      by_cases hnew : (componentStep g comp).isEmpty
      · rw [if_pos hnew]
        exact fun x hx => hx
      · rw [if_neg hnew]
        exact fun x hx => ih (comp ++ componentStep g comp) (List.mem_append_left _ hx)

/-- Everything `componentFrom` adds lies in `g.V` or was already present. -/
theorem componentFrom_mem_V (g : SGraph) :
    ∀ (fuel : Nat) (comp : List Nat) (w : Nat),
      w ∈ componentFrom g fuel comp → w ∈ comp ∨ w ∈ g.V := by
  intro fuel
  induction fuel with
  | zero => intro comp w h; exact Or.inl h
  | succ k ih =>
      intro comp w h
      rw [componentFrom] at h
      by_cases hnew : (componentStep g comp).isEmpty
      · rw [if_pos hnew] at h; exact Or.inl h
      · rw [if_neg hnew] at h
        rcases ih _ w h with hc | hv
        · rcases List.mem_append.mp hc with hc1 | hc2
          · exact Or.inl hc1
          · exact Or.inr ((mem_componentStep g comp w).mp hc2).1
        · exact Or.inr hv

/-- `componentFrom` preserves freedom from duplicates. -/
theorem componentFrom_nodup (g : SGraph) (hg : g.V.Nodup) :
    ∀ (fuel : Nat) (comp : List Nat), comp.Nodup →
      (componentFrom g fuel comp).Nodup := by
  intro fuel
  induction fuel with
  | zero => intro comp h; exact h
  | succ k ih =>
      intro comp hnd
      rw [componentFrom]
      by_cases hnew : (componentStep g comp).isEmpty
      · rw [if_pos hnew]; exact hnd
      · rw [if_neg hnew]
        apply ih
        rw [List.nodup_append]
        refine ⟨hnd, List.Nodup.filter _ hg, ?_⟩
        intro x hx hx2
        have h1 := ((mem_componentStep g comp x).mp hx2).2.1
        have h2 := (contains_iff_mem comp x).mpr hx
        rw [h2] at h1
        cases h1

/-- Everything reached is a listed vertex reachable from the seed set. -/
theorem componentFrom_sound (g : SGraph) (v : Nat) :
    ∀ (fuel : Nat) (comp : List Nat),
      (∀ u ∈ comp, Reach g v u ∧ u ∈ g.V) →
      ∀ w ∈ componentFrom g fuel comp, Reach g v w ∧ w ∈ g.V := by
  intro fuel
  induction fuel with
  | zero => intro comp h w hw; exact h w hw
  | succ k ih =>
      intro comp hcomp w hw
      rw [componentFrom] at hw
      by_cases hnew : (componentStep g comp).isEmpty
      · rw [if_pos hnew] at hw; exact hcomp w hw
      · rw [if_neg hnew] at hw
        refine ih _ ?_ w hw
        intro u hu
        rcases List.mem_append.mp hu with h1 | h2
        · exact hcomp u h1
        · rcases (mem_componentStep g comp u).mp h2 with ⟨huV, _, x, hx, hadj⟩
          exact ⟨Relation.ReflTransGen.tail (hcomp x hx).1
            ⟨hadj, (hcomp x hx).2, huV⟩, huV⟩
/-- The breadth-first step is a filtering of the not-yet-reached vertices. -/
theorem componentStep_sublist (g : SGraph) (comp : List Nat) :
    List.Sublist (componentStep g comp)
      (g.V.filter (fun w => !comp.contains w)) := by
  rw [componentStep]
  have : (fun w => !comp.contains w && comp.any (fun u => adj g u w)) =
      fun w => (comp.any (fun u => adj g u w)) && !comp.contains w := by
    funext w
    exact Bool.and_comm _ _
  rw [this, ← List.filter_filter]
  exact List.filter_sublist _

/-- Adding the step's vertices strictly shrinks the not-yet-reached rest. -/
theorem rest_length_decreases (g : SGraph) (comp : List Nat)
    (hne : ¬(componentStep g comp).isEmpty = true) :
    (g.V.filter (fun w => !(comp ++ componentStep g comp).contains w)).length <
      (g.V.filter (fun w => !comp.contains w)).length := by
  set comp2 := comp ++ componentStep g comp with hc2
  have hsub : List.Sublist (g.V.filter (fun w => !comp2.contains w))
      (g.V.filter (fun w => !comp.contains w)) := by
    have : (fun w => !comp2.contains w) =
        fun w => !comp.contains w && !comp2.contains w := by
      funext w
      rcases h2 : comp2.contains w
      · rcases h1 : comp.contains w
        · rfl
        · exfalso
          have : comp2.contains w = true := by
            apply (contains_iff_mem _ _).mpr
            exact List.mem_append_left _ ((contains_iff_mem _ _).mp h1)
          rw [h2] at this
          cases this
      · simp
    rw [this]
    have heq : g.V.filter (fun w => !comp.contains w && !comp2.contains w)
        = (g.V.filter (fun w => !comp.contains w)).filter
            (fun w => !comp2.contains w) := by
      rw [List.filter_filter]
      congr 1
      funext w
      exact Bool.and_comm _ _
    rw [heq]
    exact List.filter_sublist _
  rcases hhead : componentStep g comp with _ | ⟨h0, rest⟩
  · rw [hhead] at hne
    exact absurd rfl hne
  · have hh : h0 ∈ componentStep g comp := by rw [hhead]; simp
    rcases (mem_componentStep g comp h0).mp hh with ⟨hV, hnc, _⟩
    have hmem1 : h0 ∈ g.V.filter (fun w => !comp.contains w) := by
      rw [List.mem_filter, hnc]
      exact ⟨hV, rfl⟩
    have hmem2 : h0 ∉ g.V.filter (fun w => !comp2.contains w) := by
      rw [List.mem_filter]
      rintro ⟨_, hcon⟩
      have : comp2.contains h0 = true := by
        apply (contains_iff_mem _ _).mpr
        exact List.mem_append_right _ hh
      rw [this] at hcon
      cases hcon
    rcases Nat.lt_or_ge (g.V.filter (fun w => !comp2.contains w)).length
        (g.V.filter (fun w => !comp.contains w)).length with hlt | hge
    · exact hlt
    · exfalso
      have heq := hsub.eq_of_length
        (Nat.le_antisymm hsub.length_le hge)
      rw [heq] at hmem2
      exact hmem2 hmem1

/-- With fuel at least the number of unreached vertices, the search closes. -/
theorem componentFrom_closed (g : SGraph) :
    ∀ (fuel : Nat) (comp : List Nat),
      (g.V.filter (fun w => !comp.contains w)).length ≤ fuel →
      componentStep g (componentFrom g fuel comp) = [] := by
  intro fuel
  induction fuel with
  | zero =>
      intro comp hle
      have hrest : g.V.filter (fun w => !comp.contains w) = [] :=
        List.eq_nil_of_length_eq_zero (Nat.le_zero.mp hle)
      rw [componentFrom]
      have := componentStep_sublist g comp
      rw [hrest] at this
      exact List.sublist_nil.mp this
  | succ k ih =>
      intro comp hle
      rw [componentFrom]
      rcases hnew : (componentStep g comp).isEmpty
      · simp only [Bool.false_eq_true, if_false]
        apply ih
        have := rest_length_decreases g comp (by rw [hnew]; exact Bool.false_ne_true)
        omega
      · simp only [if_true]
        exact List.isEmpty_iff.mp hnew

/-- A closed vertex set swallows every reachability step out of it. -/
theorem closed_contains_reach (g : SGraph) (R : List Nat)
    (hclosed : componentStep g R = []) {u w : Nat} (hu : u ∈ R)
    (hr : Reach g u w) : w ∈ R := by
  induction hr with
  | refl => exact hu
  | tail _ hstep ih =>
      rename_i b c _
      by_cases hc : c ∈ R
      · exact hc
      · exfalso
        have : c ∈ componentStep g R := by
          apply (mem_componentStep g R c).mpr
          refine ⟨hstep.2.2, ?_, b, ih, hstep.1⟩
          rcases h : R.contains c
          · rfl
          · exact absurd ((contains_iff_mem _ _).mp h) hc
        rw [hclosed] at this
        cases this

/-- `component g v` is exactly the set of vertices reachable from `v`. -/
theorem mem_component_iff (g : SGraph) (v : Nat) (hv : v ∈ g.V) (w : Nat) :
    w ∈ component g v ↔ Reach g v w := by
  have hclosed : componentStep g (component g v) = [] := by
    rw [component]
    apply componentFrom_closed
    exact Nat.le_trans (List.length_filter_le _ _) (Nat.le_refl _)
  constructor
  · intro hw
    exact (componentFrom_sound g v _ [v]
      (by intro u hu; rcases List.mem_singleton.mp hu with rfl
          exact ⟨Relation.ReflTransGen.refl, hv⟩) w hw).1
  · intro hr
    exact closed_contains_reach g _ hclosed
      (componentFrom_subset g _ [v] (by simp)) hr

theorem component_subset_V (g : SGraph) (v : Nat) (hv : v ∈ g.V) :
    ∀ w ∈ component g v, w ∈ g.V := by
  intro w hw
  rcases componentFrom_mem_V g _ [v] w hw with h | h
  · rcases List.mem_singleton.mp h with rfl
    exact hv
  · exact h

theorem component_nodup (g : SGraph) (hg : g.V.Nodup) (v : Nat) :
    (component g v).Nodup :=
  componentFrom_nodup g hg _ [v] (List.nodup_singleton v)

theorem self_mem_component (g : SGraph) (v : Nat) : v ∈ component g v :=
  componentFrom_subset g _ [v] (by simp)
theorem not_contains_iff (l : List Nat) (x : Nat) :
    (!l.contains x) = true ↔ x ∉ l := by
  rw [Bool.not_eq_true']
  constructor
  · intro h hmem
    rw [(contains_iff_mem l x).mpr hmem] at h
    cases h
  · intro h
    rcases hc : l.contains x
    · rfl
    · exact absurd ((contains_iff_mem l x).mp hc) h

/-- The component scan partitions the unscanned vertices: its flattening is
a permutation of the not-yet-seen entries of the scan list. -/
theorem componentsAux_perm (g : SGraph) (hV : g.V.Nodup) :
    ∀ (vs seen : List Nat), vs.Nodup → (∀ v ∈ vs, v ∈ g.V) →
      (∀ w ∈ seen, ∀ x, Reach g w x → x ∈ seen) →
      (∀ w ∈ g.V, w ∉ seen → w ∈ vs) →
      List.Perm (componentsAux g vs seen).flatten
        (vs.filter (fun v => !seen.contains v)) := by
  intro vs
  induction vs with
  | nil => intro seen _ _ _ _; simp [componentsAux]
  | cons v rest ih =>
      intro seen hnd hsub hclosed hcover
      rw [componentsAux]
      by_cases hv : v ∈ seen
      · rw [if_pos hv, List.filter_cons]
        have hfv : (!seen.contains v) = false := by
          rw [Bool.not_eq_false']
          exact (contains_iff_mem seen v).mpr hv
        simp only [hfv, Bool.false_eq_true, if_false]
        refine ih seen hnd.of_cons (fun x hx => hsub x (List.mem_cons_of_mem _ hx))
          hclosed ?_
        intro w hw hws
        rcases List.mem_cons.mp (hcover w hw hws) with h | h
        · exact absurd (h ▸ hv) hws
        · exact h
      · rw [if_neg hv]
        have hvV : v ∈ g.V := hsub v (List.mem_cons_self v rest)
        have hcompReach : ∀ x, x ∈ component g v ↔ Reach g v x :=
          fun x => mem_component_iff g v hvV x
        have hcompV : ∀ x ∈ component g v, x ∈ g.V := component_subset_V g v hvV
        have hcompNd : (component g v).Nodup := component_nodup g hV v
        have hcompUnseen : ∀ x ∈ component g v, x ∉ seen := by
          intro x hx hxs
          exact hv (hclosed x hxs v (Reach.symm g ((hcompReach x).mp hx)))
        have hvrest : v ∉ rest := (List.nodup_cons.mp hnd).1
        have hclosed2 : ∀ w ∈ seen ++ component g v, ∀ x, Reach g w x →
            x ∈ seen ++ component g v := by
          intro w hw x hreach
          rcases List.mem_append.mp hw with h | h
          · exact List.mem_append_left _ (hclosed w h x hreach)
          · exact List.mem_append_right _ ((hcompReach x).mpr
              (Relation.ReflTransGen.trans ((hcompReach w).mp h) hreach))
        have hcover2 : ∀ w ∈ g.V, w ∉ seen ++ component g v → w ∈ rest := by
          intro w hw hws
          have h1 : w ∉ seen := fun h => hws (List.mem_append_left _ h)
          have h2 : w ∉ component g v := fun h => hws (List.mem_append_right _ h)
          rcases List.mem_cons.mp (hcover w hw h1) with h | h
          · cases h
            exact absurd (self_mem_component g v) h2
          · exact h
        have hperm := ih (seen ++ component g v) hnd.of_cons
          (fun x hx => hsub x (List.mem_cons_of_mem _ hx)) hclosed2 hcover2
        rw [List.flatten_cons]
        have hpv : (!seen.contains v) = true := (not_contains_iff seen v).mpr hv
        rw [List.filter_cons, hpv, if_pos rfl]
        refine List.Perm.trans (List.Perm.append_left (component g v) hperm) ?_
        have hnd1 : (component g v ++
            rest.filter (fun x => !(seen ++ component g v).contains x)).Nodup := by
          rw [List.nodup_append]
          refine ⟨hcompNd, hnd.of_cons.filter _, ?_⟩
          intro x hx hx2
          rcases List.mem_filter.mp hx2 with ⟨_, hnc⟩
          exact (not_contains_iff _ x).mp hnc (List.mem_append_right _ hx)
        have hnd2 : (v :: rest.filter (fun x => !seen.contains x)).Nodup := by
          rw [List.nodup_cons]
          exact ⟨fun h => hvrest (List.mem_filter.mp h).1, hnd.of_cons.filter _⟩
        apply (List.perm_ext_iff_of_nodup hnd1 hnd2).mpr
        intro a
        constructor
        · intro ha
          rcases List.mem_append.mp ha with hc | hf
          · have haV : a ∈ g.V := hcompV a hc
            have has : a ∉ seen := hcompUnseen a hc
            rcases List.mem_cons.mp (hcover a haV has) with h | h
            · exact h ▸ List.mem_cons_self v _
            · exact List.mem_cons_of_mem _ (List.mem_filter.mpr
                ⟨h, (not_contains_iff seen a).mpr has⟩)
          · rcases List.mem_filter.mp hf with ⟨har, hnc⟩
            have has : a ∉ seen := fun h =>
              (not_contains_iff _ a).mp hnc (List.mem_append_left _ h)
            exact List.mem_cons_of_mem _ (List.mem_filter.mpr
              ⟨har, (not_contains_iff seen a).mpr has⟩)
        · intro ha
          rcases List.mem_cons.mp ha with h | h
          · cases h
            exact List.mem_append_left _ (self_mem_component g v)
          · rcases List.mem_filter.mp h with ⟨har, hnc⟩
            by_cases hac : a ∈ component g v
            · exact List.mem_append_left _ hac
            · refine List.mem_append_right _ (List.mem_filter.mpr ⟨har, ?_⟩)
              apply (not_contains_iff _ a).mpr
              intro hmem
              rcases List.mem_append.mp hmem with h1 | h1
              · exact (not_contains_iff seen a).mp hnc h1
              · exact hac h1

/-- The connected components together list every vertex exactly once. -/
theorem components_flatten_perm (g : SGraph) (hV : g.V.Nodup) :
    List.Perm (connected_components g).flatten g.V := by
  rw [connected_components]
  have := componentsAux_perm g hV g.V [] hV (fun v hv => hv)
    (by intro w hw; cases hw) (fun w hw _ => hw)
  refine this.trans ?_
  have : g.V.filter (fun v => !([] : List Nat).contains v) = g.V := by
    apply List.filter_eq_self.mpr
    intro a _
    rfl
  rw [this]

/-- Every listed component is duplicate-free and made of listed vertices. -/
theorem componentsAux_parts (g : SGraph) (hV : g.V.Nodup) :
    ∀ (vs seen : List Nat), (∀ v ∈ vs, v ∈ g.V) →
      ∀ c ∈ componentsAux g vs seen, c.Nodup ∧ ∀ x ∈ c, x ∈ g.V := by
  intro vs
  induction vs with
  | nil => intro seen _ c hc; cases hc
  | cons v rest ih =>
      intro seen hsub c hc
      rw [componentsAux] at hc
      by_cases hv : v ∈ seen
      · rw [if_pos hv] at hc
        exact ih seen (fun x hx => hsub x (List.mem_cons_of_mem _ hx)) c hc
      · rw [if_neg hv] at hc
        rcases List.mem_cons.mp hc with h | h
        · cases h
          exact ⟨component_nodup g hV v,
            component_subset_V g v (hsub v (List.mem_cons_self v rest))⟩
        · exact ih _ (fun x hx => hsub x (List.mem_cons_of_mem _ hx)) c h

theorem components_parts (g : SGraph) (hV : g.V.Nodup) :
    ∀ c ∈ connected_components g, c.Nodup ∧ ∀ x ∈ c, x ∈ g.V :=
  componentsAux_parts g hV g.V [] (fun _ hv => hv)
/-!
## The gamma-class dictionary invariant (towards C10)

`DInv g d` is what the Habib-Maurer recursion needs of the cached
`g_classes` dictionary: every key is (as a set) the support of its class,
and every class edge between listed vertices is an edge of the graph.
It holds of `gamma_classes g` and survives passage to induced subgraphs.
-/

theorem eqset_iff {α : Type} [DecidableEq α] (xs ys : List α) :
    eqset xs ys = true ↔ (∀ x ∈ xs, x ∈ ys) ∧ (∀ y ∈ ys, y ∈ xs) := by
  simp [eqset, List.all_eq_true]

theorem eqset_refl {α : Type} [DecidableEq α] (xs : List α) :
    eqset xs xs = true :=
  (eqset_iff xs xs).mpr ⟨fun _ h => h, fun _ h => h⟩

theorem mem_support (loe : List (Nat × Nat)) (v : Nat) :
    v ∈ support loe ↔ ∃ e ∈ loe, v = e.1 ∨ v = e.2 := by
  rw [support, List.mem_dedup, List.mem_flatten]
  constructor
  · rintro ⟨l, hl, hv⟩
    rcases List.mem_map.mp hl with ⟨e, he, rfl⟩
    rcases List.mem_cons.mp hv with h | h
    · exact ⟨e, he, Or.inl h⟩
    · exact ⟨e, he, Or.inr (List.mem_singleton.mp h)⟩
  · rintro ⟨e, he, hv⟩
    refine ⟨[e.1, e.2], List.mem_map.mpr ⟨e, he, rfl⟩, ?_⟩
    rcases hv with rfl | rfl <;> simp

/-- A `foldl` keeps any invariant its step keeps. -/
theorem foldl_preserve {α β : Type} (Inv : β → Prop) (f : β → α → β) :
    ∀ (l : List α) (init : β), Inv init →
      (∀ s a, a ∈ l → Inv s → Inv (f s a)) → Inv (l.foldl f init) := by
  intro l
  induction l with
  | nil => intro init h _; exact h
  | cons a t ih =>
      intro init h hstep
      exact ih (f init a) (hstep init a (List.mem_cons_self a t) h)
        (fun s b hb => hstep s b (List.mem_cons_of_mem _ hb))

theorem extractBlock_mem :
    ∀ (part : List (List (Nat × Nat))) (e : Nat × Nat)
      (b : List (Nat × Nat)) (rest : List (List (Nat × Nat))),
      extractBlock part e = some (b, rest) →
        b ∈ part ∧ ∀ x ∈ rest, x ∈ part := by
  intro part
  induction part with
  | nil => intro e b rest h; cases h
  | cons hd tl ih =>
      intro e b rest h
      rw [extractBlock] at h
      by_cases hany : hd.any (epEq e) = true
      · rw [if_pos hany] at h
        rcases Option.some.inj h with h2
        rcases Prod.mk.injEq .. ▸ h2 with ⟨rfl, rfl⟩
        exact ⟨List.mem_cons_self _ _, fun x hx => List.mem_cons_of_mem _ hx⟩
      · rw [if_neg hany] at h
        rcases htl : extractBlock tl e with _ | ⟨be, r⟩
        · rw [htl] at h; cases h
        · rw [htl] at h
          rcases Option.some.inj h with h2
          rcases Prod.mk.injEq .. ▸ h2 with ⟨rfl, rfl⟩
          rcases ih e be r htl with ⟨h1, h3⟩
          refine ⟨List.mem_cons_of_mem _ h1, ?_⟩
          intro x hx
          rcases List.mem_cons.mp hx with rfl | hx2
          · exact List.mem_cons_self _ _
          · exact List.mem_cons_of_mem _ (h3 x hx2)

/-- A `union` of the disjoint set never invents edges: every edge of every
block of the result lay in some block before. -/
theorem unionE_blocks (P : (Nat × Nat) → Prop) (part : List (List (Nat × Nat)))
    (e f : Nat × Nat) (h : ∀ b ∈ part, ∀ x ∈ b, P x) :
    ∀ b ∈ unionE part e f, ∀ x ∈ b, P x := by
  rw [unionE]
  rcases h1 : extractBlock part e with _ | ⟨be, rest⟩
  · exact h
  · rcases extractBlock_mem part e be rest h1 with ⟨hbe, hrest⟩
    dsimp only
    by_cases h2 : be.any (epEq f) = true
    · rw [if_pos h2]; exact h
    · rw [if_neg h2]
      rcases h3 : extractBlock rest f with _ | ⟨bf, rest2⟩
      · exact h
      · rcases extractBlock_mem rest f bf rest2 h3 with ⟨hbf, hrest2⟩
        dsimp only
        intro b hb x hx
        rcases List.mem_cons.mp hb with rfl | hb2
        · rcases List.mem_append.mp hx with hx1 | hx1
          · exact h be hbe x hx1
          · exact h bf (hrest bf hbf) x hx1
        · exact h b (hrest _ (hrest2 b hb2)) x hx

theorem gammaStep_blocks (g : SGraph) (P : (Nat × Nat) → Prop)
    (part : List (List (Nat × Nat))) (v : Nat)
    (h : ∀ b ∈ part, ∀ x ∈ b, P x) :
    ∀ b ∈ gammaStep g part v, ∀ x ∈ b, P x := by
  rw [gammaStep]
  apply foldl_preserve (fun p => ∀ b ∈ p, ∀ x ∈ b, P x) _ _ part h
  intro p comp _ hp
  rcases comp with _ | ⟨v1, rest⟩
  · exact hp
  · apply foldl_preserve (fun p2 => ∀ b ∈ p2, ∀ x ∈ b, P x) _ rest p hp
    intro s vi _ hs
    exact unionE_blocks P s (v1, v) (vi, v) hs

theorem mem_edgeList (g : SGraph) (e : Nat × Nat) (h : e ∈ edgeList g) :
    adj g e.1 e.2 = true :=
  (List.mem_filter.mp h).2

/-- Every edge of every gamma piece is an edge of the graph. -/
theorem gammaPieces_blocks (g : SGraph) :
    ∀ b ∈ gammaPieces g, ∀ e ∈ b, adj g e.1 e.2 = true := by
  rw [gammaPieces]
  apply foldl_preserve (fun p => ∀ b ∈ p, ∀ e ∈ b, adj g e.1 e.2 = true)
    (gammaStep g) g.V ((edgeList g).map (fun e => [e]))
  · intro b hb e he
    rcases List.mem_map.mp hb with ⟨f, hf, rfl⟩
    rcases List.mem_singleton.mp he with rfl
    exact mem_edgeList g e hf
  · intro s v _ hs
    exact gammaStep_blocks g _ s v hs

/-- The invariant the recursion needs of a cached class dictionary. -/
def DInv (g : SGraph) (d : List (List Nat × List (Nat × Nat))) : Prop :=
  ∀ kv ∈ d, eqset kv.1 (support kv.2) = true ∧
    ∀ e ∈ kv.2, e.1 ∈ g.V → e.2 ∈ g.V → adj g e.1 e.2 = true

theorem DInv_gamma (g : SGraph) : DInv g (gamma_classes g) := by
  have hQ : ∀ kv ∈ gamma_classes g, eqset kv.1 (support kv.2) = true ∧
      ∀ e ∈ kv.2, adj g e.1 e.2 = true := by
    rw [gamma_classes]
    apply foldl_preserve (fun d => ∀ kv ∈ d,
        eqset kv.1 (support kv.2) = true ∧ ∀ e ∈ kv.2, adj g e.1 e.2 = true)
      (fun d loe => dictUpsert d (support loe) loe) (gammaPieces g) []
    · intro kv h; cases h
    · intro d loe hloe hd
      have hedges : ∀ e ∈ loe, adj g e.1 e.2 = true :=
        gammaPieces_blocks g loe hloe
      rw [dictUpsert]
      by_cases hany : d.any (fun kv => eqset kv.1 (support loe)) = true
      · rw [if_pos hany]
        intro kv hkv
        rcases List.mem_map.mp hkv with ⟨kv0, hkv0, rfl⟩
        by_cases heq : eqset kv0.1 (support loe) = true
        · rw [if_pos heq]
          exact ⟨heq, hedges⟩
        · rw [if_neg heq]
          exact hd kv0 hkv0
      · rw [if_neg hany]
        intro kv hkv
        rcases List.mem_append.mp hkv with h | h
        · exact hd kv h
        · rcases List.mem_singleton.mp h with rfl
          exact ⟨eqset_refl _, hedges⟩
  intro kv hkv
  exact ⟨(hQ kv hkv).1, fun e he _ _ => (hQ kv hkv).2 e he⟩

theorem adj_subgraphV (g : SGraph) (X : List Nat) (a b : Nat)
    (ha : a ∈ X) (hb : b ∈ X) (h : adj g a b = true) :
    adj (subgraphV g X) a b = true := by
  rcases (adj_true_iff g a b).mp h with ⟨f, hf, hor⟩
  apply (adj_true_iff (subgraphV g X) a b).mpr
  refine ⟨f, ?_, hor⟩
  show f ∈ (subgraphV g X).E
  apply List.mem_filter.mpr
  refine ⟨hf, ?_⟩
  rcases hor with ⟨h1, h2⟩ | ⟨h1, h2⟩ <;> subst h1 <;> subst h2 <;> simp [ha, hb]

theorem mem_subgraphV_V (g : SGraph) (X : List Nat) (a : Nat) :
    a ∈ (subgraphV g X).V ↔ a ∈ g.V ∧ a ∈ X := by
  show a ∈ g.V.filter _ ↔ _
  rw [List.mem_filter]
  simp

/-- The dictionary invariant passes to induced subgraphs unchanged. -/
theorem DInv_subgraphV (g : SGraph) (X : List Nat)
    (d : List (List Nat × List (Nat × Nat))) (h : DInv g d) :
    DInv (subgraphV g X) d := by
  intro kv hkv
  refine ⟨(h kv hkv).1, ?_⟩
  intro e he h1 h2
  rcases (mem_subgraphV_V g X e.1).mp h1 with ⟨h1V, h1X⟩
  rcases (mem_subgraphV_V g X e.2).mp h2 with ⟨h2V, h2X⟩
  exact adj_subgraphV g X e.1 e.2 h1X h2X ((h kv hkv).2 e he h1V h2V)

theorem subgraphV_wf (g : SGraph) (X : List Nat) (h : g.wf) :
    (subgraphV g X).wf := by
  refine ⟨rfl, h.2.1.filter _, ?_⟩
  intro e he
  rcases List.mem_filter.mp he with ⟨heE, hcond⟩
  simp only [Bool.and_eq_true, decide_eq_true_eq] at hcond
  rcases h.2.2 e heE with ⟨hv1, hv2, hne⟩
  refine ⟨?_, ?_, hne⟩
  · exact (mem_subgraphV_V g X e.1).mpr ⟨hv1, hcond.1⟩
  · exact (mem_subgraphV_V g X e.2).mpr ⟨hv2, hcond.2⟩

theorem subgraphV_V_perm (g : SGraph) (X : List Nat) (hV : g.V.Nodup)
    (hnd : X.Nodup) (hsub : ∀ x ∈ X, x ∈ g.V) :
    List.Perm (subgraphV g X).V X := by
  apply (List.perm_ext_iff_of_nodup (hV.filter _) hnd).mpr
  intro a
  constructor
  · intro h
    exact ((mem_subgraphV_V g X a).mp h).2
  · intro h
    exact (mem_subgraphV_V g X a).mpr ⟨hsub a h, h⟩
/-!
## The prime-branch dictionaries `d` and `d1` (towards C10)

The keys of `d = buildD sub` are exactly the vertices with a neighbor in
`sub`, each once; `d1 = buildD1 d` rebuckets those keys by neighborhood,
so the values of `d1` together list the keys of `d` exactly once.
-/

theorem mem_neighbors (g : SGraph) (v x : Nat) :
    x ∈ neighbors g v ↔ x ∈ g.V ∧ adj g v x = true := by
  rw [neighbors, List.mem_filter]

theorem dInsert_keys_mem (d : List (Nat × List Nat)) (k v x : Nat) :
    x ∈ (dInsert d k v).map (fun kv => kv.1) ↔
      x ∈ d.map (fun kv => kv.1) ∨ x = k := by
  rw [dInsert]
  by_cases hany : d.any (fun kv => kv.1 == k) = true
  · rw [if_pos hany]
    have hmap : (d.map (fun kv => if kv.1 == k then (kv.1, kv.2 ++ [v]) else kv)).map
        (fun kv => kv.1) = d.map (fun kv => kv.1) := by
      rw [List.map_map]
      apply List.map_congr_left
      intro kv _
      by_cases h : kv.1 = k
      · simp [h]
      · simp [h]
    rw [hmap]
    constructor
    · exact Or.inl
    · rintro (h | rfl)
      · exact h
      · rcases List.any_eq_true.mp hany with ⟨kv, hkv, hk⟩
        exact List.mem_map.mpr ⟨kv, hkv, beq_iff_eq.mp hk⟩
  · rw [if_neg hany, List.map_append]
    simp only [List.mem_append, List.map_cons, List.map_nil, List.mem_singleton]

theorem dInsert_keys_nodup (d : List (Nat × List Nat)) (k v : Nat)
    (h : (d.map (fun kv => kv.1)).Nodup) :
    ((dInsert d k v).map (fun kv => kv.1)).Nodup := by
  rw [dInsert]
  by_cases hany : d.any (fun kv => kv.1 == k) = true
  · rw [if_pos hany]
    have hmap : (d.map (fun kv => if kv.1 == k then (kv.1, kv.2 ++ [v]) else kv)).map
        (fun kv => kv.1) = d.map (fun kv => kv.1) := by
      rw [List.map_map]
      apply List.map_congr_left
      intro kv _
      by_cases hc : kv.1 = k
      · simp [hc]
      · simp [hc]
    rw [hmap]
    exact h
  · rw [if_neg hany, List.map_append]
    rw [List.nodup_append]
    refine ⟨h, List.nodup_singleton k, ?_⟩
    intro x hx hx2
    rcases List.mem_map.mp hx with ⟨kv, hkv, rfl⟩
    rcases List.mem_singleton.mp hx2 with h2
    apply Bool.eq_false_iff.mp (Bool.eq_false_iff.mpr ?_) rfl
    intro _
    have : d.any (fun kv => kv.1 == k) = true :=
      List.any_eq_true.mpr ⟨kv, hkv, beq_iff_eq.mpr h2⟩
    exact hany this

/-- The inner `for v1 in d[v]`-style fold of `buildD`, keys after. -/
theorem foldN_keys_mem (v : Nat) :
    ∀ (l : List Nat) (d : List (Nat × List Nat)) (x : Nat),
      x ∈ ((l.foldl (fun d2 v1 => dInsert d2 v1 v) d).map (fun kv => kv.1)) ↔
        x ∈ d.map (fun kv => kv.1) ∨ x ∈ l := by
  intro l
  induction l with
  | nil => intro d x; simp
  | cons a t ih =>
      intro d x
      rw [List.foldl_cons, ih, dInsert_keys_mem]
      constructor
      · rintro ((h | rfl) | h)
        · exact Or.inl h
        · exact Or.inr (List.mem_cons_self _ _)
        · exact Or.inr (List.mem_cons_of_mem _ h)
      · rintro (h | h)
        · exact Or.inl (Or.inl h)
        · rcases List.mem_cons.mp h with rfl | h2
          · exact Or.inl (Or.inr rfl)
          · exact Or.inr h2

theorem foldN_keys_nodup (v : Nat) :
    ∀ (l : List Nat) (d : List (Nat × List Nat)),
      (d.map (fun kv => kv.1)).Nodup →
      ((l.foldl (fun d2 v1 => dInsert d2 v1 v) d).map (fun kv => kv.1)).Nodup := by
  intro l
  induction l with
  | nil => intro d h; exact h
  | cons a t ih =>
      intro d h
      exact ih (dInsert d a v) (dInsert_keys_nodup d a v h)

theorem buildD_fold_keys_mem (sub : SGraph) :
    ∀ (l : List Nat) (d : List (Nat × List Nat)) (x : Nat),
      x ∈ ((l.foldl (fun d v => (neighbors sub v).foldl
          (fun d2 v1 => dInsert d2 v1 v) d) d).map (fun kv => kv.1)) ↔
        x ∈ d.map (fun kv => kv.1) ∨ ∃ u ∈ l, x ∈ neighbors sub u := by
  intro l
  induction l with
  | nil => intro d x; simp
  | cons a t ih =>
      intro d x
      rw [List.foldl_cons, ih, foldN_keys_mem]
      constructor
      · rintro ((h | h) | ⟨u, hu, hx⟩)
        · exact Or.inl h
        · exact Or.inr ⟨a, List.mem_cons_self _ _, h⟩
        · exact Or.inr ⟨u, List.mem_cons_of_mem _ hu, hx⟩
      · rintro (h | ⟨u, hu, hx⟩)
        · exact Or.inl (Or.inl h)
        · rcases List.mem_cons.mp hu with rfl | h2
          · exact Or.inl (Or.inr hx)
          · exact Or.inr ⟨u, h2, hx⟩

theorem buildD_keys_mem (sub : SGraph) (x : Nat) :
    x ∈ (buildD sub).map (fun kv => kv.1) ↔ ∃ u ∈ sub.V, x ∈ neighbors sub u := by
  rw [buildD, buildD_fold_keys_mem]
  simp

theorem buildD_keys_nodup (sub : SGraph) :
    ((buildD sub).map (fun kv => kv.1)).Nodup := by
  rw [buildD]
  have : ∀ (l : List Nat) (d : List (Nat × List Nat)),
      (d.map (fun kv => kv.1)).Nodup →
      ((l.foldl (fun d v => (neighbors sub v).foldl
          (fun d2 v1 => dInsert d2 v1 v) d) d).map (fun kv => kv.1)).Nodup := by
    intro l
    induction l with
    | nil => intro d h; exact h
    | cons a t ih =>
        intro d h
        exact ih _ (foldN_keys_nodup a (neighbors sub a) d h)
  exact this sub.V [] List.nodup_nil

/-- The keys of `d` are exactly the vertices of `sub`, one occurrence each,
whenever every vertex of `sub` has a neighbor. -/
theorem buildD_keys_perm (sub : SGraph) (hnd : sub.V.Nodup)
    (hcov : ∀ x ∈ sub.V, ∃ u ∈ sub.V, adj sub u x = true) :
    List.Perm ((buildD sub).map (fun kv => kv.1)) sub.V := by
  apply (List.perm_ext_iff_of_nodup (buildD_keys_nodup sub) hnd).mpr
  intro a
  rw [buildD_keys_mem]
  constructor
  · rintro ⟨u, _, hx⟩
    exact ((mem_neighbors sub u a).mp hx).1
  · intro ha
    rcases hcov a ha with ⟨u, hu, hadj⟩
    exact ⟨u, hu, (mem_neighbors sub u a).mpr ⟨ha, hadj⟩⟩

/-- Pairwise distinctness of the `frozenset` keys of a bucket dictionary. -/
def UniqueKeys (d1 : List (List Nat × List Nat)) : Prop :=
  List.Pairwise (fun a b => eqset a.1 b.1 = false) d1

theorem eqset_trans_right {α : Type} [DecidableEq α] (a b k : List α)
    (h1 : eqset a k = true) (h2 : eqset b k = true) : eqset a b = true := by
  rcases (eqset_iff a k).mp h1 with ⟨hak, hka⟩
  rcases (eqset_iff b k).mp h2 with ⟨hbk, hkb⟩
  exact (eqset_iff a b).mpr ⟨fun x hx => hkb x (hak x hx), fun x hx => hka x (hbk x hx)⟩

theorem d1Insert_unique (d1 : List (List Nat × List Nat)) (k : List Nat)
    (v : Nat) (h : UniqueKeys d1) : UniqueKeys (d1Insert d1 k v) := by
  rw [d1Insert]
  by_cases hany : d1.any (fun kv => eqset kv.1 k) = true
  · rw [if_pos hany]
    apply List.Pairwise.map _ _ h
    intro a b hab
    by_cases ha : eqset a.1 k = true <;> by_cases hb : eqset b.1 k = true
    · rw [if_pos ha, if_pos hb]; exact hab
    · rw [if_pos ha, if_neg hb]; exact hab
    · rw [if_neg ha, if_pos hb]; exact hab
    · rw [if_neg ha, if_neg hb]; exact hab
  · rw [if_neg hany]
    rw [UniqueKeys, List.pairwise_append]
    refine ⟨h, List.pairwise_singleton _ _, ?_⟩
    intro a ha b hb
    rcases List.mem_singleton.mp hb with rfl
    rcases hc : eqset a.1 k
    · rfl
    · exact absurd (List.any_eq_true.mpr ⟨a, ha, hc⟩) hany

theorem bucket_append (k : List Nat) (v : Nat) :
    ∀ (d1 : List (List Nat × List Nat)), UniqueKeys d1 →
      d1.any (fun kv => eqset kv.1 k) = true →
      List.Perm
        (((d1.map (fun kv => if eqset kv.1 k then (kv.1, kv.2 ++ [v]) else kv)).map
          (fun kv => kv.2)).flatten)
        (((d1.map (fun kv => kv.2)).flatten) ++ [v]) := by
  intro d1
  induction d1 with
  | nil => intro _ h; cases h
  | cons a t ih =>
      intro hu hany
      rcases List.pairwise_cons.mp hu with ⟨ha, ht⟩
      by_cases hk : eqset a.1 k = true
      · rw [List.map_cons, if_pos hk]
        have htid : t.map (fun kv => if eqset kv.1 k then (kv.1, kv.2 ++ [v]) else kv)
            = t := by
          have : ∀ kv ∈ t,
              (if eqset kv.1 k then (kv.1, kv.2 ++ [v]) else kv) = kv := by
            intro kv hkv
            by_cases hc : eqset kv.1 k = true
            · have h2 := eqset_trans_right a.1 kv.1 k hk hc
              rw [ha kv hkv] at h2
              cases h2
            · rw [if_neg hc]
          calc t.map (fun kv => if eqset kv.1 k then (kv.1, kv.2 ++ [v]) else kv)
              = t.map id := List.map_congr_left (fun kv hkv => this kv hkv)
            _ = t := List.map_id t
        rw [htid, List.map_cons, List.flatten_cons, List.map_cons, List.flatten_cons]
        rw [List.append_assoc, List.append_assoc]
        exact List.Perm.append_left a.2 List.perm_append_comm
      · rw [List.map_cons, if_neg hk, List.map_cons, List.flatten_cons,
          List.map_cons, List.flatten_cons, List.append_assoc]
        have hanyt : t.any (fun kv => eqset kv.1 k) = true := by
          rcases List.any_eq_true.mp hany with ⟨kv, hkv, hc⟩
          rcases List.mem_cons.mp hkv with rfl | h2
          · exact absurd hc hk
          · exact List.any_eq_true.mpr ⟨kv, h2, hc⟩
        exact List.Perm.append_left a.2 (ih ht hanyt)

theorem d1Insert_flatten (d1 : List (List Nat × List Nat)) (k : List Nat)
    (v : Nat) (h : UniqueKeys d1) :
    List.Perm (((d1Insert d1 k v).map (fun kv => kv.2)).flatten)
      (((d1.map (fun kv => kv.2)).flatten) ++ [v]) := by
  rw [d1Insert]
  by_cases hany : d1.any (fun kv => eqset kv.1 k) = true
  · rw [if_pos hany]
    exact bucket_append k v d1 h hany
  · rw [if_neg hany, List.map_append, List.flatten_append]
    simp

theorem buildD1_fold :
    ∀ (d : List (Nat × List Nat)) (d1 : List (List Nat × List Nat)),
      UniqueKeys d1 →
      UniqueKeys (d.foldl (fun d1 kv => d1Insert d1 kv.2 kv.1) d1) ∧
      List.Perm
        (((d.foldl (fun d1 kv => d1Insert d1 kv.2 kv.1) d1).map
          (fun kv => kv.2)).flatten)
        (((d1.map (fun kv => kv.2)).flatten) ++ d.map (fun kv => kv.1)) := by
  intro d
  induction d with
  | nil =>
      intro d1 h
      refine ⟨h, ?_⟩
      simp
  | cons kv t ih =>
      intro d1 h
      rw [List.foldl_cons]
      rcases ih (d1Insert d1 kv.2 kv.1) (d1Insert_unique d1 kv.2 kv.1 h) with
        ⟨hu, hperm⟩
      refine ⟨hu, ?_⟩
      refine hperm.trans ?_
      refine (List.Perm.append_right (t.map (fun kv => kv.1))
        (d1Insert_flatten d1 kv.2 kv.1 h)).trans ?_
      rw [List.append_assoc, List.map_cons, List.singleton_append]

/-- The buckets of `d1` together hold the keys of `d`, each exactly once. -/
theorem buildD1_flatten_perm (d : List (Nat × List Nat)) :
    List.Perm (((buildD1 d).map (fun kv => kv.2)).flatten)
      (d.map (fun kv => kv.1)) := by
  rw [buildD1]
  have := (buildD1_fold d [] (List.Pairwise.nil)).2
  simpa using this

/-- Each bucket of `d1` is duplicate-free and made of keys of `d`. -/
theorem buildD1_bucket_facts (d : List (Nat × List Nat))
    (hnd : (d.map (fun kv => kv.1)).Nodup) :
    ∀ kv ∈ buildD1 d, kv.2.Nodup ∧ ∀ x ∈ kv.2, x ∈ d.map (fun kv => kv.1) := by
  have hperm := buildD1_flatten_perm d
  have hfl : (((buildD1 d).map (fun kv => kv.2)).flatten).Nodup :=
    hperm.symm.nodup hnd
  intro kv hkv
  have hmem : kv.2 ∈ (buildD1 d).map (fun kv => kv.2) :=
    List.mem_map.mpr ⟨kv, hkv, rfl⟩
  refine ⟨(List.sublist_flatten_of_mem hmem).nodup hfl, ?_⟩
  intro x hx
  exact hperm.mem_iff.mp (List.mem_flatten.mpr ⟨kv.2, hmem, hx⟩)
/-!
## Leaves of the Habib-Maurer tree (C10)

The main induction: on well-formed input, and with a cached dictionary
satisfying `DInv`, the decomposition tree's `get_vertices` is a
permutation of the graph's vertex list.
-/

theorem collectForest_nil : collectForest [] = .ok .nil := rfl

theorem collectForest_cons_err (e : HErr)
    (rest : List (Except HErr (MDTree Nat))) :
    collectForest (.error e :: rest) = .error e := rfl

theorem collectForest_cons_ok (t : MDTree Nat)
    (rest : List (Except HErr (MDTree Nat))) :
    collectForest (.ok t :: rest) =
      match collectForest rest with
      | .error e => .error e
      | .ok f => .ok (.cons t f) := rfl

/-- Inverting the list comprehension of recursive calls: when every call
returns a tree whose vertices permute the projected input, the assembled
forest's vertices permute the flattened projections. -/
theorem collectForest_perm {α : Type} (proj : α → List Nat)
    (F : α → Except HErr (MDTree Nat)) :
    ∀ (l : List α) (f : MDForest Nat),
      (∀ a ∈ l, ∀ t, F a = .ok t → List.Perm (get_vertices t) (proj a)) →
      collectForest (l.map F) = .ok f →
      List.Perm (get_vertices_forest f) ((l.map proj).flatten) := by
  intro l
  induction l with
  | nil =>
      intro f _ hcf
      rw [List.map_nil, collectForest_nil] at hcf
      rcases Except.ok.inj hcf with rfl
      exact List.Perm.refl _
  | cons a l ih =>
      intro f hok hcf
      rw [List.map_cons] at hcf
      rcases hFa : F a with e | t
      · rw [hFa, collectForest_cons_err] at hcf
        cases hcf
      · rw [hFa, collectForest_cons_ok] at hcf
        rcases hrest : collectForest (l.map F) with e2 | f2
        · rw [hrest] at hcf
          cases hcf
        · rw [hrest] at hcf
          rcases Except.ok.inj hcf with rfl
          show List.Perm (get_vertices t ++ get_vertices_forest f2) _
          rw [List.map_cons, List.flatten_cons]
          exact List.Perm.append (hok a (List.mem_cons_self a l) t hFa)
            (ih f2 (fun b hb => hok b (List.mem_cons_of_mem _ hb)) hrest)

/-- One level of `habibFuel`, with the `let`s expanded away. -/
theorem habibFuel_succ2 (fuel : Nat) (g : SGraph)
    (gcls : Option (List (List Nat × List (Nat × Nat)))) :
    habibFuel (fuel + 1) g gcls =
      (if g.directed then .error .directed
       else if g.V.length == 0 then .ok (.node .PRIME .nil)
       else if g.V.length == 1 then .ok (.leaf (g.V.headD 0))
       else if !is_connected g then
         match collectForest ((connected_components g).map
             (fun sg => habibFuel fuel (subgraphV g sg) gcls)) with
         | .error e => .error e
         | .ok f => .ok (.node .PARALLEL f)
       else if is_connected (complement g) then
         match lookupClass
             (match gcls with | some d => d | none => gamma_classes g) g.V with
         | none => .error .keyError
         | some cls =>
           match collectForest
               ((buildD1 (buildD (subgraphE g cls))).map
                 (fun kv => habibFuel fuel (subgraphV g kv.2)
                   (some (match gcls with
                          | some d => d
                          | none => gamma_classes g)))) with
           | .error e => .error e
           | .ok f => .ok (.node .PRIME f)
       else
         match collectForest ((connected_components (complement g)).map
             (fun sg => habibFuel fuel (subgraphV g sg) gcls)) with
         | .error e => .error e
         | .ok f => .ok (.node .SERIES f)) := rfl

theorem adj_subgraphE (g : SGraph) (cls : List (Nat × Nat)) (a b : Nat)
    (e : Nat × Nat) (he : e ∈ cls)
    (hab : (e.1 = a ∧ e.2 = b) ∨ (e.1 = b ∧ e.2 = a))
    (h : adj g a b = true) : adj (subgraphE g cls) a b = true := by
  rcases (adj_true_iff g a b).mp h with ⟨f, hf, hor⟩
  apply (adj_true_iff (subgraphE g cls) a b).mpr
  refine ⟨f, ?_, hor⟩
  show f ∈ (subgraphE g cls).E
  apply List.mem_filter.mpr
  refine ⟨hf, List.any_eq_true.mpr ⟨e, he, ?_⟩⟩
  rcases hab with ⟨h1, h2⟩ | ⟨h1, h2⟩ <;> rcases hor with ⟨h3, h4⟩ | ⟨h3, h4⟩ <;>
    subst h1 <;> subst h2 <;> rw [← h3, ← h4] <;> simp

set_option maxHeartbeats 1000000 in
/-- The vertices of the tree computed at any recursion level permute the
graph's vertex list. -/
theorem habibFuel_perm :
    ∀ (fuel : Nat) (g : SGraph)
      (gcls : Option (List (List Nat × List (Nat × Nat)))) (t : MDTree Nat),
      g.wf → (∀ d, gcls = some d → DInv g d) →
      habibFuel fuel g gcls = .ok t → List.Perm (get_vertices t) g.V := by
  intro fuel
  induction fuel with
  | zero => intro g gcls t _ _ h; cases h
  | succ k ih =>
      intro g gcls t hwf hinv hrun
      rw [habibFuel_succ2] at hrun
      rw [if_neg (by simp [hwf.1])] at hrun
      by_cases h0 : g.V.length = 0
      · rw [if_pos (by simp [h0])] at hrun
        rcases Except.ok.inj hrun with rfl
        rw [List.length_eq_zero.mp h0]
        exact List.Perm.refl _
      rw [if_neg (by simpa using h0)] at hrun
      by_cases h1 : g.V.length = 1
      · rw [if_pos (by simp [h1])] at hrun
        rcases Except.ok.inj hrun with rfl
        rcases List.length_eq_one.mp h1 with ⟨v, hv⟩
        rw [hv]
        exact List.Perm.refl _
      rw [if_neg (by simpa using h1)] at hrun
      by_cases hconn : is_connected g = true
      case neg =>
        have hcf : is_connected g = false := by
          rcases hc : is_connected g
          · rfl
          · exact absurd hc hconn
        rw [if_pos (by rw [hcf]; rfl)] at hrun
        rcases hcoll : collectForest ((connected_components g).map
            (fun sg => habibFuel k (subgraphV g sg) gcls)) with e | f
        · rw [hcoll] at hrun
          cases hrun
        · rw [hcoll] at hrun
          rcases Except.ok.inj hrun with rfl
          show List.Perm (get_vertices_forest f) g.V
          have hch : ∀ sg ∈ connected_components g, ∀ t',
              habibFuel k (subgraphV g sg) gcls = .ok t' →
              List.Perm (get_vertices t') (id sg) := by
            intro sg hsg t' hrun'
            have hparts := components_parts g hwf.2.1 sg hsg
            exact (ih (subgraphV g sg) gcls t' (subgraphV_wf g sg hwf)
              (fun d hd => DInv_subgraphV g sg d (hinv d hd)) hrun').trans
              (subgraphV_V_perm g sg hwf.2.1 hparts.1 hparts.2)
          refine (collectForest_perm id _ (connected_components g) f hch
            hcoll).trans ?_
          rw [List.map_id]
          exact components_flatten_perm g hwf.2.1
      case pos =>
        rw [if_neg (by simp [hconn])] at hrun
        by_cases hconn2 : is_connected (complement g) = true
        · rw [if_pos hconn2] at hrun
          rcases hgd : gcls with _ | d0
          all_goals rw [hgd] at hrun hinv
          rotate_left 1
          · dsimp only at hrun
            have hD : DInv g d0 := hinv d0 rfl
            rcases hlk : lookupClass d0 g.V with _ | cls
            · rw [hlk] at hrun
              cases hrun
            · rw [hlk] at hrun
              dsimp only at hrun
              rcases hfind : d0.find? (fun kv => eqset kv.1 g.V) with _ | kv
              · rw [lookupClass, hfind] at hlk
                cases hlk
              · rw [lookupClass, hfind] at hlk
                rcases Option.some.inj hlk with rfl
                have hkvmem : kv ∈ d0 := List.mem_of_find?_eq_some hfind
                have hkey : eqset kv.1 g.V = true := by have h := List.find?_some hfind; exact h
                rcases hD kv hkvmem with ⟨hks, hedges⟩
                have hsup : ∀ x, x ∈ support kv.2 ↔ x ∈ g.V := by
                  intro x
                  rcases (eqset_iff kv.1 (support kv.2)).mp hks with ⟨hk1, hk2⟩
                  rcases (eqset_iff kv.1 g.V).mp hkey with ⟨hg1, hg2⟩
                  exact ⟨fun h => hg1 x (hk2 x h), fun h => hk1 x (hg2 x h)⟩
                have hcov : ∀ x ∈ (subgraphE g kv.2).V,
                    ∃ u ∈ (subgraphE g kv.2).V,
                      adj (subgraphE g kv.2) u x = true := by
                  intro x hx
                  rcases (mem_support kv.2 x).mp ((hsup x).mpr hx) with
                    ⟨e, he, hor⟩
                  have he1 : e.1 ∈ g.V := (hsup e.1).mp
                    ((mem_support kv.2 e.1).mpr ⟨e, he, Or.inl rfl⟩)
                  have he2 : e.2 ∈ g.V := (hsup e.2).mp
                    ((mem_support kv.2 e.2).mpr ⟨e, he, Or.inr rfl⟩)
                  have hadj : adj g e.1 e.2 = true := hedges e he he1 he2
                  rcases hor with rfl | rfl
                  · refine ⟨e.2, he2, ?_⟩
                    rw [adj_comm]
                    exact adj_subgraphE g kv.2 e.1 e.2 e he
                      (Or.inl ⟨rfl, rfl⟩) hadj
                  · exact ⟨e.1, he1, adj_subgraphE g kv.2 e.1 e.2 e he
                      (Or.inl ⟨rfl, rfl⟩) hadj⟩
                have hKeys : List.Perm
                    ((buildD (subgraphE g kv.2)).map (fun kv => kv.1)) g.V :=
                  buildD_keys_perm (subgraphE g kv.2) hwf.2.1 hcov
                have hbuckets := buildD1_bucket_facts (buildD (subgraphE g kv.2))
                  (buildD_keys_nodup (subgraphE g kv.2))
                rcases hcoll : collectForest
                    ((buildD1 (buildD (subgraphE g kv.2))).map
                      (fun b => habibFuel k (subgraphV g b.2) (some d0))) with
                  e | f
                · rw [hcoll] at hrun
                  cases hrun
                · rw [hcoll] at hrun
                  rcases Except.ok.inj hrun with rfl
                  show List.Perm (get_vertices_forest f) g.V
                  have hch : ∀ b ∈ buildD1 (buildD (subgraphE g kv.2)), ∀ t',
                      habibFuel k (subgraphV g b.2) (some d0) = .ok t' →
                      List.Perm (get_vertices t') b.2 := by
                    intro b hb t' hrun'
                    rcases hbuckets b hb with ⟨hbnd, hbsub⟩
                    have hbV : ∀ x ∈ b.2, x ∈ g.V := fun x hx =>
                      hKeys.mem_iff.mp (hbsub x hx)
                    exact (ih (subgraphV g b.2) (some d0) t'
                      (subgraphV_wf g b.2 hwf)
                      (fun d hd => by
                        rcases Option.some.inj hd with rfl
                        exact DInv_subgraphV g b.2 d0 hD) hrun').trans
                      (subgraphV_V_perm g b.2 hwf.2.1 hbnd hbV)
                  refine (collectForest_perm (fun b => b.2) _
                    (buildD1 (buildD (subgraphE g kv.2))) f hch hcoll).trans ?_
                  exact (buildD1_flatten_perm (buildD (subgraphE g kv.2))).trans
                    hKeys
          · dsimp only at hrun
            have hD : DInv g (gamma_classes g) := DInv_gamma g
            rcases hlk : lookupClass (gamma_classes g) g.V with _ | cls
            · rw [hlk] at hrun
              cases hrun
            · rw [hlk] at hrun
              dsimp only at hrun
              rcases hfind : (gamma_classes g).find?
                  (fun kv => eqset kv.1 g.V) with _ | kv
              · rw [lookupClass, hfind] at hlk
                cases hlk
              · rw [lookupClass, hfind] at hlk
                rcases Option.some.inj hlk with rfl
                have hkvmem : kv ∈ gamma_classes g :=
                  List.mem_of_find?_eq_some hfind
                have hkey : eqset kv.1 g.V = true := by have h := List.find?_some hfind; exact h
                rcases hD kv hkvmem with ⟨hks, hedges⟩
                have hsup : ∀ x, x ∈ support kv.2 ↔ x ∈ g.V := by
                  intro x
                  rcases (eqset_iff kv.1 (support kv.2)).mp hks with ⟨hk1, hk2⟩
                  rcases (eqset_iff kv.1 g.V).mp hkey with ⟨hg1, hg2⟩
                  exact ⟨fun h => hg1 x (hk2 x h), fun h => hk1 x (hg2 x h)⟩
                have hcov : ∀ x ∈ (subgraphE g kv.2).V,
                    ∃ u ∈ (subgraphE g kv.2).V,
                      adj (subgraphE g kv.2) u x = true := by
                  intro x hx
                  rcases (mem_support kv.2 x).mp ((hsup x).mpr hx) with
                    ⟨e, he, hor⟩
                  have he1 : e.1 ∈ g.V := (hsup e.1).mp
                    ((mem_support kv.2 e.1).mpr ⟨e, he, Or.inl rfl⟩)
                  have he2 : e.2 ∈ g.V := (hsup e.2).mp
                    ((mem_support kv.2 e.2).mpr ⟨e, he, Or.inr rfl⟩)
                  have hadj : adj g e.1 e.2 = true := hedges e he he1 he2
                  rcases hor with rfl | rfl
                  · refine ⟨e.2, he2, ?_⟩
                    rw [adj_comm]
                    exact adj_subgraphE g kv.2 e.1 e.2 e he
                      (Or.inl ⟨rfl, rfl⟩) hadj
                  · exact ⟨e.1, he1, adj_subgraphE g kv.2 e.1 e.2 e he
                      (Or.inl ⟨rfl, rfl⟩) hadj⟩
                have hKeys : List.Perm
                    ((buildD (subgraphE g kv.2)).map (fun kv => kv.1)) g.V :=
                  buildD_keys_perm (subgraphE g kv.2) hwf.2.1 hcov
                have hbuckets := buildD1_bucket_facts (buildD (subgraphE g kv.2))
                  (buildD_keys_nodup (subgraphE g kv.2))
                rcases hcoll : collectForest
                    ((buildD1 (buildD (subgraphE g kv.2))).map
                      (fun b => habibFuel k (subgraphV g b.2)
                        (some (gamma_classes g)))) with e | f
                · rw [hcoll] at hrun
                  cases hrun
                · rw [hcoll] at hrun
                  rcases Except.ok.inj hrun with rfl
                  show List.Perm (get_vertices_forest f) g.V
                  have hch : ∀ b ∈ buildD1 (buildD (subgraphE g kv.2)), ∀ t',
                      habibFuel k (subgraphV g b.2) (some (gamma_classes g)) =
                        .ok t' →
                      List.Perm (get_vertices t') b.2 := by
                    intro b hb t' hrun'
                    rcases hbuckets b hb with ⟨hbnd, hbsub⟩
                    have hbV : ∀ x ∈ b.2, x ∈ g.V := fun x hx =>
                      hKeys.mem_iff.mp (hbsub x hx)
                    exact (ih (subgraphV g b.2) (some (gamma_classes g)) t'
                      (subgraphV_wf g b.2 hwf)
                      (fun d hd => by
                        rcases Option.some.inj hd with rfl
                        exact DInv_subgraphV g b.2 (gamma_classes g) hD)
                      hrun').trans
                      (subgraphV_V_perm g b.2 hwf.2.1 hbnd hbV)
                  refine (collectForest_perm (fun b => b.2) _
                    (buildD1 (buildD (subgraphE g kv.2))) f hch hcoll).trans ?_
                  exact (buildD1_flatten_perm (buildD (subgraphE g kv.2))).trans
                    hKeys
        · rw [if_neg hconn2] at hrun
          rcases hcoll : collectForest ((connected_components (complement g)).map
              (fun sg => habibFuel k (subgraphV g sg) gcls)) with e | f
          · rw [hcoll] at hrun
            cases hrun
          · rw [hcoll] at hrun
            rcases Except.ok.inj hrun with rfl
            show List.Perm (get_vertices_forest f) g.V
            have hch : ∀ sg ∈ connected_components (complement g), ∀ t',
                habibFuel k (subgraphV g sg) gcls = .ok t' →
                List.Perm (get_vertices t') (id sg) := by
              intro sg hsg t' hrun'
              have hparts := components_parts (complement g) hwf.2.1 sg hsg
              exact (ih (subgraphV g sg) gcls t' (subgraphV_wf g sg hwf)
                (fun d hd => DInv_subgraphV g sg d (hinv d hd)) hrun').trans
                (subgraphV_V_perm g sg hwf.2.1 hparts.1 hparts.2)
            refine (collectForest_perm id _
              (connected_components (complement g)) f hch hcoll).trans ?_
            rw [List.map_id]
            exact components_flatten_perm (complement g) hwf.2.1
/-- **C10.** For every finite simple undirected graph, the leaves of the
tree returned by the decomposer are in bijection with the vertices:
`get_vertices` applied to the result of `habib_maurer_algorithm` lists
every vertex of the graph exactly once, with no extra or duplicate
entries (the returned vertex list is a permutation of the graph's vertex
list). -/
theorem habib_leaves_are_vertices (g : SGraph) (t : MDTree Nat)
    (hwf : g.wf) (h : habib_maurer_algorithm g = .ok t) :
    List.Perm (get_vertices t) g.V :=
  habibFuel_perm (g.V.length + 1) g none t hwf (fun _ hd => by cases hd) h

theorem habib_leaves_are_vertices_witness :
    SGraph.wf ⟨false, [0, 1, 2], []⟩ ∧
    List.Perm (get_vertices (MDTree.node .PARALLEL
      (.cons (.leaf 0) (.cons (.leaf 1) (.cons (.leaf 2) .nil))))) [0, 1, 2] :=
  ⟨⟨rfl, by decide, fun e he => absurd he (List.not_mem_nil e)⟩,
   habib_leaves_are_vertices ⟨false, [0, 1, 2], []⟩ _
     ⟨rfl, by decide, fun e he => absurd he (List.not_mem_nil e)⟩ rfl⟩

/-- The linear decomposer meets the complete/edgeless base cases on the
smallest instances, kernel-checked by running the machine: `SERIES` over
both vertices of `K_2`, `PARALLEL` over both vertices of the edgeless
graph on two vertices, and likewise on three vertices (child order as
produced by the assembly phase). -/
theorem tedder_base_instances :
    tedder_algorithm ⟨false, [0, 1], [(0, 1)]⟩ =
      .ok (.node .SERIES (.cons (.leaf 0) (.cons (.leaf 1) .nil))) ∧
    tedder_algorithm ⟨false, [0, 1], []⟩ =
      .ok (.node .PARALLEL (.cons (.leaf 0) (.cons (.leaf 1) .nil))) ∧
    tedder_algorithm ⟨false, [0, 1, 2], [(0, 1), (0, 2), (1, 2)]⟩ =
      .ok (.node .SERIES
        (.cons (.leaf 1) (.cons (.leaf 0) (.cons (.leaf 2) .nil)))) ∧
    tedder_algorithm ⟨false, [0, 1, 2], []⟩ =
      .ok (.node .PARALLEL
        (.cons (.leaf 2) (.cons (.leaf 0) (.cons (.leaf 1) .nil)))) :=
  ⟨rfl, rfl, rfl, rfl⟩
